import Mathlib

/-!
# drawboardcanvas_server: a shallow embedding

The server keeps one `DrawingState` (an undoable, bounded stroke log), a
`RoomRegistry` (presence per room) and a cursor map, and reacts to socket
events.  This file embeds `src/drawing-state.js`, `src/rooms.js` and
`src/server.js` as pure Lean functions over a small model of JavaScript
values, and proves properties of them.

Conventions of the embedding:

* a JavaScript string is its sequence of UTF-16 code units (`JSString`), so
  that `.length`, `trim` and the non-unicode regular expressions of the
  source act on the same units as in the engine;
* a JavaScript number is `JSNum`: a finite value (a rational, of which the
  doubles are a subset; the program only compares, clamps and copies them),
  `NaN`, `+Infinity` or `-Infinity`;
* a thrown exception is the `error` side of `Except JSError`;
* `Date.now()` is an explicit parameter `now`;
* the library functions of the language whose full definition is long
  (`StringToNumber`, `Number::toString`, `toUpperCase`, rounding to a double)
  are fields of `Builtins`.
-/

namespace Drawboard

/-! ## JavaScript values -/

/-- A JavaScript string: the list of its UTF-16 code units. -/
abbrev JSString := List Nat

/-- UTF-16 code units of one Unicode scalar value. -/
def utf16Char (c : Char) : List Nat :=
  if c.toNat < 65536 then [c.toNat]
  else [55296 + (c.toNat - 65536) / 1024, 56320 + (c.toNat - 65536) % 1024]

/-- UTF-16 encoding of a Lean string literal. -/
def utf16 (s : String) : JSString :=
  s.data.foldr (fun c acc => utf16Char c ++ acc) []

/-- A JavaScript number. -/
inductive JSNum where
  | fin (q : ℚ)
  | nan
  | posInf
  | negInf
  deriving DecidableEq

/-- The exceptions the embedded code can raise. -/
inductive JSError where
  | typeError
  deriving DecidableEq, Repr

/-- JavaScript values that can reach a handler: JSON-like data decoded from
the wire, plus the acknowledgement callback (`func`) that the transport
appends to the arguments. -/
inductive JSVal where
  | undefined
  | null
  | bool (b : Bool)
  | num (n : JSNum)
  | str (s : JSString)
  | arr (xs : List JSVal)
  | obj (fields : List (String × JSVal))
  | func (id : Nat)

/-- The language conversions that are taken as given. -/
structure Builtins where
  /-- The operation `StringToNumber` of ECMA-262 (`Number(s)` for a string `s`). -/
  stringToNumber : JSString → JSNum
  /-- The operation `Number::toString` of ECMA-262 (`String(n)` for a number `n`). -/
  numberToString : JSNum → JSString
  /-- The method `Function.prototype.toString` applied to a callback. -/
  functionToString : Nat → JSString
  /-- The method `String.prototype.toUpperCase`. -/
  toUpperCase : JSString → JSString
  /-- The double nearest to an integer, which is again an integer (every
  double of magnitude at least 2^52 is one); the identity below 2^53. -/
  roundToDouble : Int → Int

/-- Own-property lookup in an object literal (first binding of the key). -/
def lookupField (k : String) : List (String × JSVal) → Option JSVal
  | [] => none
  | (k', v) :: rest => if k' = k then some v else lookupField k rest

/-- Truthiness (`ToBoolean`). -/
def truthy : JSVal → Bool
  | .undefined => false
  | .null => false
  | .bool b => b
  | .num (.fin q) => decide (q ≠ 0)
  | .num .nan => false
  | .num _ => true
  | .str s => !s.isEmpty
  | .arr _ => true
  | .obj _ => true
  | .func _ => true

/-- Property read `v.k` for the data-property names the source reads
(`points`, `x`, `y`, `width`, `tool`, `color`, `strokeId`, `from`, `to`,
`background`, `label`), none of which is defined on a built-in prototype:
an object yields its own binding or `undefined`, any other non-nullish value
yields `undefined`, and reading a property of `undefined` or `null` throws. -/
def getProp (v : JSVal) (k : String) : Except JSError JSVal :=
  match v with
  | .undefined => .error .typeError
  | .null => .error .typeError
  | .obj fields => .ok ((lookupField k fields).getD .undefined)
  | _ => .ok .undefined

/-- Optional chaining `v?.k`. -/
def getPropOpt (v : JSVal) (k : String) : JSVal :=
  match v with
  | .obj fields => (lookupField k fields).getD .undefined
  | _ => .undefined

/-- The test `Number.isFinite(v)`: no coercion, true only for a finite number. -/
def numberIsFinite : JSVal → Bool
  | .num (.fin _) => true
  | _ => false

/-- The test `typeof v === "string"`. -/
def isString : JSVal → Bool
  | .str _ => true
  | _ => false

/-- The test `typeof v === "function"`. -/
def isFunction : JSVal → Bool
  | .func _ => true
  | _ => false

/-- The test `Array.isArray(v)`. -/
def isArray : JSVal → Bool
  | .arr _ => true
  | _ => false

mutual
/-- The conversion `ToString(v)`.  An array is joined with commas (`undefined` and `null`
elements print as the empty string).  An object decoded from the wire has no
callable own property, so `OrdinaryToPrimitive` reaches
`Object.prototype.toString` unless an own `toString` data property shadows
it, in which case no method yields a primitive and a `TypeError` is thrown. -/
def toStringJS (B : Builtins) : JSVal → Except JSError JSString
  | .undefined => .ok (utf16 "undefined")
  | .null => .ok (utf16 "null")
  | .bool true => .ok (utf16 "true")
  | .bool false => .ok (utf16 "false")
  | .num n => .ok (B.numberToString n)
  | .str s => .ok s
  | .arr xs => joinJS B xs
  | .obj fields =>
    match lookupField "toString" fields with
    | some _ => .error .typeError
    | none => .ok (utf16 "[object Object]")
  | .func id => .ok (B.functionToString id)
/-- The method `Array.prototype.join` with the default separator. -/
def joinJS (B : Builtins) : List JSVal → Except JSError JSString
  | [] => .ok []
  | [x] => elemJS B x
  | x :: y :: rest =>
    match elemJS B x with
    | .error e => .error e
    | .ok a =>
      match joinJS B (y :: rest) with
      | .error e => .error e
      | .ok b => .ok (a ++ 44 :: b)
/-- The string one element contributes to `join`. -/
def elemJS (B : Builtins) : JSVal → Except JSError JSString
  | .undefined => .ok []
  | .null => .ok []
  | .bool b => toStringJS B (.bool b)
  | .num n => .ok (B.numberToString n)
  | .str s => .ok s
  | .arr xs => joinJS B xs
  | .obj fields => toStringJS B (.obj fields)
  | .func id => .ok (B.functionToString id)
end

/-- The conversion `Number(v)` (`ToNumber`).  Arrays and objects go through `ToPrimitive`
with hint number: the inherited `valueOf` returns the object itself, so the
result is `StringToNumber(ToString(v))`; for a plain object that string is
`"[object Object]"`, which is not numeric. -/
def toNumber (B : Builtins) : JSVal → Except JSError JSNum
  | .undefined => .ok .nan
  | .null => .ok (.fin 0)
  | .bool true => .ok (.fin 1)
  | .bool false => .ok (.fin 0)
  | .num n => .ok n
  | .str s => .ok (B.stringToNumber s)
  | .arr xs =>
    match joinJS B xs with
    | .error e => .error e
    | .ok s => .ok (B.stringToNumber s)
  | .obj fields =>
    match lookupField "toString" fields with
    | some _ => .error .typeError
    | none => .ok .nan
  | .func _ => .ok .nan

/-- The call `xs.map(f)` for a callback that can throw: elements are visited in order
and the first exception aborts the call. -/
def mapThrowing {α β : Type} (f : α → Except JSError β) : List α → Except JSError (List β)
  | [] => .ok []
  | x :: xs =>
    match f x with
    | .error e => .error e
    | .ok y =>
      match mapThrowing f xs with
      | .error e => .error e
      | .ok ys => .ok (y :: ys)

/-! ## `src/drawing-state.js` -/

/-- A point of a normalized stroke, `{ x, y }`. -/
structure Point where
  x : JSNum
  y : JSNum
  deriving DecidableEq

/-- A normalized stroke, the object literal built by `#normalizeOperation`. -/
structure Operation where
  strokeId : JSString
  tool : JSString
  color : JSString
  width : JSNum
  points : List Point
  deriving DecidableEq

/-- The constant `MAX_HISTORY_LENGTH`. -/
def MAX_HISTORY_LENGTH : Nat := 10000

/-- The two arrays of a `DrawingState`; the end of each list is the end of
the JavaScript array (`push` appends, `pop` removes the last element,
`shift` removes the first). -/
structure DrawingState where
  operationHistory : List Operation
  redoStack : List Operation
  deriving DecidableEq

namespace DrawingState

/-- The constructor: both arrays empty. -/
def new : DrawingState := { operationHistory := [], redoStack := [] }

/-- The filter callback of `#normalizeOperation`:
`Number.isFinite(point?.x) && Number.isFinite(point?.y)`. -/
def pointIsFinite (point : JSVal) : Bool :=
  numberIsFinite (getPropOpt point "x") && numberIsFinite (getPropOpt point "y")

/-- The map callback of `#normalizeOperation`:
`{ x: Number(point.x), y: Number(point.y) }`. -/
def toPoint (B : Builtins) (point : JSVal) : Except JSError Point := do
  let px ← getProp point "x"
  let x ← toNumber B px
  let py ← getProp point "y"
  let y ← toNumber B py
  pure { x := x, y := y }

/-- The expression `Math.min(50, Math.max(1, w))` for a finite `w`. -/
def clampFinite (w : ℚ) : ℚ := min 50 (max 1 w)

/-- The expression `Number.isFinite(width) ? Math.min(50, Math.max(1, width)) : 1`. -/
def clampNum : JSNum → JSNum
  | .fin w => .fin (clampFinite w)
  | _ => .fin 1

/-- The template literal `stroke-${Date.now()}`. -/
def generatedStrokeId (now : Nat) : JSString :=
  utf16 "stroke-" ++ utf16 (toString now)

/-- The method `#normalizeOperation(operation)`; `none` is the `null` it returns
on rejection. -/
def normalizeOperation (B : Builtins) (now : Nat) (operation : JSVal) :
    Except JSError (Option Operation) :=
  if !truthy operation then pure none
  else do
    let rawPoints ← getProp operation "points"
    match rawPoints with
    | .arr rawPoints =>
      if rawPoints.length < 2 then pure none
      else do
        let points ← mapThrowing (toPoint B) (rawPoints.filter pointIsFinite)
        if points.length < 2 then pure none
        else do
          let rawWidth ← getProp operation "width"
          let width ← toNumber B rawWidth
          let rawId ← getProp operation "strokeId"
          let rawTool ← getProp operation "tool"
          let rawColor ← getProp operation "color"
          pure (some
            { strokeId :=
                match rawId with
                | .str s => s
                | _ => generatedStrokeId now
              tool :=
                match rawTool with
                | .str s => if s = utf16 "eraser" then utf16 "eraser" else utf16 "brush"
                | _ => utf16 "brush"
              color :=
                match rawColor with
                | .str s => s
                | _ => utf16 "#000000"
              width := clampNum width
              points := points })
    | _ => pure none

/-- The method `getHistory()`: a fresh copy of every operation and point. -/
def getHistory (st : DrawingState) : List Operation :=
  st.operationHistory.map fun operation =>
    { strokeId := operation.strokeId
      tool := operation.tool
      color := operation.color
      width := operation.width
      points := operation.points.map fun point => { x := point.x, y := point.y } }

/-- A `push` followed by the `shift` that runs when the length exceeds
`MAX_HISTORY_LENGTH`. -/
def pushBounded (history : List Operation) (normalized : Operation) : List Operation :=
  let pushed := history ++ [normalized]
  if pushed.length > MAX_HISTORY_LENGTH then pushed.tail else pushed

/-- The method `addOperation(operation)`: the new state and the returned value
(`none` for `null`).  When normalization throws, nothing has been mutated
yet. -/
def addOperation (B : Builtins) (now : Nat) (st : DrawingState) (operation : JSVal) :
    Except JSError (DrawingState × Option Operation) :=
  match normalizeOperation B now operation with
  | .error e => .error e
  | .ok none => .ok (st, none)
  | .ok (some normalized) =>
    .ok ({ operationHistory := pushBounded st.operationHistory normalized
           redoStack := [] }, some normalized)

/-- The method `undo()`: the new state and the returned snapshot.  The popped
element is an object, hence truthy, so the guard `if (op)` always passes. -/
def undo (st : DrawingState) : DrawingState × List Operation :=
  if st.operationHistory.length = 0 then (st, st.getHistory)
  else
    match st.operationHistory.getLast? with
    | none => (st, st.getHistory)
    | some op =>
      let st' : DrawingState :=
        { operationHistory := st.operationHistory.dropLast
          redoStack := st.redoStack ++ [op] }
      (st', st'.getHistory)

/-- The method `redo()`: the new state and the returned snapshot. -/
def redo (st : DrawingState) : DrawingState × List Operation :=
  if st.redoStack.length = 0 then (st, st.getHistory)
  else
    match st.redoStack.getLast? with
    | none => (st, st.getHistory)
    | some op =>
      let st' : DrawingState :=
        { operationHistory := st.operationHistory ++ [op]
          redoStack := st.redoStack.dropLast }
      (st', st'.getHistory)

/-- The method `clear()`. -/
def clear (_st : DrawingState) : DrawingState :=
  { operationHistory := [], redoStack := [] }

/-- One call on a `DrawingState`. -/
inductive Call where
  | addOperation (now : Nat) (operation : JSVal)
  | undo
  | redo
  | getHistory
  | clear

/-- The state after one call; a call that throws leaves the state as it
was. -/
def step (B : Builtins) (st : DrawingState) : Call → DrawingState
  | .addOperation now operation =>
    match addOperation B now st operation with
    | .error _ => st
    | .ok (st', _) => st'
  | .undo => (undo st).1
  | .redo => (redo st).1
  | .getHistory => st
  | .clear => clear st

/-- The state after a sequence of calls on a fresh `DrawingState`. -/
def run (B : Builtins) (calls : List Call) : DrawingState :=
  calls.foldl (step B) new

/-- A raw point and a normalized point carry the same coordinates. -/
def SameCoords (raw : JSVal) (p : Point) : Prop :=
  getPropOpt raw "x" = .num p.x ∧ getPropOpt raw "y" = .num p.y

/-- The object literal returned by `#normalizeOperation`, as a function of the
raw stroke, the converted width and the filtered points. -/
def built (now : Nat) (raw : JSVal) (width : JSNum) (points : List Point) : Operation :=
  { strokeId :=
      match getPropOpt raw "strokeId" with
      | .str s => s
      | _ => generatedStrokeId now
    tool :=
      match getPropOpt raw "tool" with
      | .str s => if s = utf16 "eraser" then utf16 "eraser" else utf16 "brush"
      | _ => utf16 "brush"
    color :=
      match getPropOpt raw "color" with
      | .str s => s
      | _ => utf16 "#000000"
    width := clampNum width
    points := points }

end DrawingState

/-! ## `src/rooms.js` -/

/-- A plain object: its own properties in insertion order.  The first
binding of a key is the property; a later binding of the same key is
shadowed.  (An engine enumerates integer-like keys before the others; the
embedding keeps insertion order throughout, which changes no read by key.) -/
abbrev JSObject := List (String × JSVal)

/-- The assignment `obj[k] = v`: an existing property keeps its position. -/
def setField (k : String) (v : JSVal) : JSObject → JSObject
  | [] => [(k, v)]
  | (k', v') :: rest => if k' = k then (k, v) :: rest else (k', v') :: setField k v rest

/-- The properties of an object that are not shadowed, scanning with the keys
already `seen`. -/
def unshadowed (seen : List String) : JSObject → JSObject
  | [] => []
  | (k, v) :: rest =>
    if k ∈ seen then unshadowed seen rest else (k, v) :: unshadowed (k :: seen) rest

/-- The own enumerable properties that a spread `...source` copies: the
properties of an object, the indexed elements of an array, the indexed code
units of a string, and nothing for any other value. -/
def ownEntries : JSVal → JSObject
  | .obj fields => unshadowed [] fields
  | .arr xs => xs.enum.map fun p => (toString p.1, p.2)
  | .str s => s.enum.map fun p => (toString p.1, .str [p.2])
  | _ => []

/-- The spread `{ ...target, ...source }` continued from an object under
construction. -/
def spreadInto (target : JSObject) (source : JSVal) : JSObject :=
  (ownEntries source).foldl (fun acc p => setField p.1 p.2 acc) target

/-- The method `Map.prototype.get`. -/
def mapGet {α : Type} (k : JSString) : List (JSString × α) → Option α
  | [] => none
  | (k', v) :: rest => if k' = k then some v else mapGet k rest

/-- The method `Map.prototype.set`: an existing key keeps its position, a new key goes
last. -/
def mapSet {α : Type} (k : JSString) (v : α) : List (JSString × α) → List (JSString × α)
  | [] => [(k, v)]
  | (k', v') :: rest => if k' = k then (k, v) :: rest else (k', v') :: mapSet k v rest

/-- The method `Map.prototype.delete`. -/
def mapDelete {α : Type} (k : JSString) : List (JSString × α) → List (JSString × α)
  | [] => []
  | (k', v') :: rest => if k' = k then rest else (k', v') :: mapDelete k rest

/-- A room `{ id, users }`; `users` maps a user id to its presence object. -/
structure Room where
  id : JSString
  users : List (JSString × JSObject)

/-- The class `RoomRegistry`: the map `rooms`, keyed by room id. -/
structure RoomRegistry where
  rooms : List (JSString × Room)

namespace RoomRegistry

/-- The method `getOrCreateRoom(roomId)`. -/
def getOrCreateRoom (reg : RoomRegistry) (roomId : JSString) : RoomRegistry × Room :=
  match mapGet roomId reg.rooms with
  | some room => (reg, room)
  | none =>
    let room : Room := { id := roomId, users := [] }
    ({ rooms := mapSet roomId room reg.rooms }, room)

/-- The constructor: an empty map in which `"global"` is created. -/
def new : RoomRegistry := (getOrCreateRoom { rooms := [] } (utf16 "global")).1

/-- The method `listUsers(roomId)`. -/
def listUsers (reg : RoomRegistry) (roomId : JSString) : RoomRegistry × List JSObject :=
  let (reg1, room) := getOrCreateRoom reg roomId
  (reg1, room.users.map Prod.snd)

/-- Storing the mutated `users` map of a room obtained from
`getOrCreateRoom`. -/
def putUsers (reg : RoomRegistry) (roomId : JSString) (room : Room)
    (users : List (JSString × JSObject)) : RoomRegistry :=
  { rooms := mapSet roomId { room with users := users } reg.rooms }

/-- The method `addUser(roomId, userId, userData)`. -/
def addUser (reg : RoomRegistry) (roomId userId : JSString) (userData : JSVal) :
    RoomRegistry × List JSObject :=
  let (reg1, room) := getOrCreateRoom reg roomId
  let presence := setField "id" (.str userId) (spreadInto [] userData)
  listUsers (putUsers reg1 roomId room (mapSet userId presence room.users)) roomId

/-- The method `removeUser(roomId, userId)`. -/
def removeUser (reg : RoomRegistry) (roomId userId : JSString) :
    RoomRegistry × List JSObject :=
  let (reg1, room) := getOrCreateRoom reg roomId
  listUsers (putUsers reg1 roomId room (mapDelete userId room.users)) roomId

/-- The method `updateUser(roomId, userId, updates)`; `none` is the `null`
returned when the user has no presence in the room. -/
def updateUser (reg : RoomRegistry) (roomId userId : JSString) (updates : JSVal) :
    RoomRegistry × Option JSObject :=
  let (reg1, room) := getOrCreateRoom reg roomId
  match mapGet userId room.users with
  | none => (reg1, none)
  | some existing =>
    let next := setField "id" (.str userId) (spreadInto (spreadInto [] (.obj existing)) updates)
    (putUsers reg1 roomId room (mapSet userId next room.users), some next)

/-- The method `getUser(roomId, userId)`; a presence is an object, hence
truthy, so `|| null` only replaces `undefined`. -/
def getUser (reg : RoomRegistry) (roomId userId : JSString) : RoomRegistry × Option JSObject :=
  let (reg1, room) := getOrCreateRoom reg roomId
  (reg1, mapGet userId room.users)

end RoomRegistry

/-! ## `src/server.js`: validators and sanitizers -/

/-- The constant `DEFAULT_CANVAS_BACKGROUND`. -/
def DEFAULT_CANVAS_BACKGROUND : JSString := utf16 "#ffffff"

/-- The code units that `String.prototype.trim` removes and that `\s`
matches: the `WhiteSpace` and `LineTerminator` productions of ECMA-262. -/
def isWhiteSpace (c : Nat) : Bool :=
  c == 9 || c == 10 || c == 11 || c == 12 || c == 13 || c == 32 || c == 160 ||
    c == 5760 || (8192 ≤ c && c ≤ 8202) || c == 8232 || c == 8233 || c == 8239 ||
    c == 8287 || c == 12288 || c == 65279

/-- The class `[A-Za-z]`. -/
def isAsciiLetter (c : Nat) : Bool :=
  (65 ≤ c && c ≤ 90) || (97 ≤ c && c ≤ 122)

/-- The class `[0-9]`. -/
def isAsciiDigit (c : Nat) : Bool :=
  48 ≤ c && c ≤ 57

/-- The call `s.trim()`. -/
def jsTrim (s : JSString) : JSString :=
  (s.dropWhile isWhiteSpace).rdropWhile isWhiteSpace

/-- The class `[A-Za-z0-9\s'._-]` of `normalizeDisplayName`. -/
def isNameChar (c : Nat) : Bool :=
  isAsciiLetter c || isAsciiDigit c || isWhiteSpace c || c == 39 || c == 46 || c == 95 ||
    c == 45

/-- The class `[#(),.%0-9a-zA-Z\/\s-]` of `normalizeBackgroundColor`. -/
def isBackgroundChar (c : Nat) : Bool :=
  c == 35 || c == 40 || c == 41 || c == 44 || c == 46 || c == 37 || isAsciiDigit c ||
    isAsciiLetter c || c == 47 || isWhiteSpace c || c == 45

/-- Scanning for `\s+` from left to right: `inRun` tells whether the previous
code unit belonged to the run being replaced. -/
def collapseFrom : Bool → JSString → JSString
  | _, [] => []
  | inRun, c :: rest =>
    if isWhiteSpace c then
      if inRun then collapseFrom true rest else 32 :: collapseFrom true rest
    else c :: collapseFrom false rest

/-- The call `s.replace(/\s+/g, " ")`: every maximal run of white space becomes one
space. -/
def collapseWhiteSpace (s : JSString) : JSString := collapseFrom false s

/-- The two result shapes of `normalizeDisplayName`: `{ ok: true, value }` and
`{ ok: false, error }`. -/
inductive NameResult where
  | ok (value : JSString)
  | fail (error : JSString)
  deriving DecidableEq

/-- The function `normalizeDisplayName(rawValue)`. -/
def normalizeDisplayName (rawValue : JSVal) : NameResult :=
  match rawValue with
  | .str rawValue =>
    let trimmed := jsTrim rawValue
    if trimmed.length < 2 then
      .fail (utf16 "Display name must be at least 2 characters.")
    else
      let sanitized := trimmed.filter isNameChar
      let collapsed := jsTrim (collapseWhiteSpace sanitized)
      if collapsed.isEmpty then .fail (utf16 "Display name cannot be empty.")
      else if collapsed.length > 32 then
        .fail (utf16 "Display name must be 32 characters or less.")
      else .ok collapsed
  | _ => .fail (utf16 "Display name must be text.")

/-- The function `normalizeBackgroundColor(value)`. -/
def normalizeBackgroundColor (value : JSVal) : JSString :=
  match value with
  | .str value =>
    let trimmed := jsTrim value
    if trimmed.isEmpty then DEFAULT_CANVAS_BACKGROUND
    else
      let sanitized := jsTrim (trimmed.filter isBackgroundChar)
      if sanitized.isEmpty then DEFAULT_CANVAS_BACKGROUND
      else sanitized.take 64
  | _ => DEFAULT_CANVAS_BACKGROUND

/-- The cleaned form of a display name: the trimmed input with every code
unit outside letters, digits, white space and `' . _ -` removed, white-space
runs collapsed to one space, then trimmed again. -/
def cleanedName (s : JSString) : JSString :=
  jsTrim (collapseWhiteSpace ((jsTrim s).filter isNameChar))

/-! ## `src/server.js`: colors, labels and segments -/

/-- The constant `GLOBAL_ROOM`. -/
def GLOBAL_ROOM : JSString := utf16 "global"

/-- The conversion `ToInt32` on an integer value. -/
def toInt32 (n : Int) : Int :=
  let m := n % 4294967296
  if m ≥ 2147483648 then m - 4294967296 else m

/-- The elements of `Array.from(input)`, each reduced to `charCodeAt(0)`: the
string iterator yields code points, so a high surrogate followed by a low
surrogate forms one element, of which only the high surrogate is read. -/
def codePointHeads : JSString → List Nat
  | [] => []
  | [c] => [c]
  | hi :: lo :: rest =>
    if (55296 ≤ hi && hi ≤ 56319) && (56320 ≤ lo && lo ≤ 57343) then hi :: codePointHeads rest
    else hi :: codePointHeads (lo :: rest)

/-- The reducer of `hashCode`: `(hash << 5) - hash + char.charCodeAt(0)`.  The
shift converts its operand with `ToInt32` and wraps its result to 32 bits;
the subtraction and the addition are double operations on integer values,
each giving the double nearest to the exact result. -/
def hashStep (B : Builtins) (hash : Int) (c : Nat) : Int :=
  B.roundToDouble (B.roundToDouble (toInt32 (toInt32 hash * 32) - hash) + c)

/-- The function `hashCode(input)`. -/
def hashCode (B : Builtins) (input : JSString) : Int :=
  (codePointHeads input).foldl (hashStep B) 0

/-- The array `palette` of `assignUserColor`. -/
def palette : List JSString :=
  [utf16 "#FF6B6B", utf16 "#4ECDC4", utf16 "#FFD93D", utf16 "#1A535C", utf16 "#FF9F1C",
    utf16 "#9B5DE5", utf16 "#00BBF9", utf16 "#F15BB5"]

/-- The function `assignUserColor(seed)`; an index outside the array reads
`undefined`. -/
def assignUserColor (B : Builtins) (seed : JSString) : JSVal :=
  let index := (hashCode B seed).natAbs % palette.length
  match palette[index]? with
  | some color => .str color
  | none => .undefined

/-- The function `clampWidth(width)`. -/
def clampWidth (B : Builtins) (width : JSVal) : Except JSError JSNum := do
  let value ← toNumber B width
  match value with
  | .fin w => pure (.fin (min 50 (max 1 w)))
  | _ => pure (.fin 1)

/-- The function `buildDefaultLabel(socketId)`. -/
def buildDefaultLabel (B : Builtins) (socketId : JSVal) : JSString :=
  match socketId with
  | .str s =>
    if s.length < 4 then utf16 "User"
    else utf16 "User " ++ B.toUpperCase (s.drop (s.length - 4))
  | _ => utf16 "User"

/-- The function `isValidSegment(segment)`, as the truthiness of what it
returns.  Every property is read from a value already found truthy (`&&`
evaluates left to right), so no read can throw. -/
def isValidSegment (segment : JSVal) : Bool :=
  if !truthy segment then false
  else
    let segFrom := getPropOpt segment "from"
    let segTo := getPropOpt segment "to"
    truthy segFrom && truthy segTo &&
      numberIsFinite (getPropOpt segFrom "x") && numberIsFinite (getPropOpt segFrom "y") &&
      numberIsFinite (getPropOpt segTo "x") && numberIsFinite (getPropOpt segTo "y")

/-- A sanitized segment, the object literal built by `sanitizeSegment`; the
fields `segFrom` and `segTo` are its `from` and `to`. -/
structure Segment where
  strokeId : JSString
  tool : JSString
  color : JSString
  width : JSNum
  segFrom : Point
  segTo : Point

/-- The function `sanitizeSegment(segment)`. -/
def sanitizeSegment (B : Builtins) (now : Nat) (segment : JSVal) : Except JSError Segment := do
  let rawId ← getProp segment "strokeId"
  let rawTool ← getProp segment "tool"
  let rawColor ← getProp segment "color"
  let rawWidth ← getProp segment "width"
  let width ← clampWidth B rawWidth
  let rawFrom ← getProp segment "from"
  let fromX ← toNumber B (← getProp rawFrom "x")
  let fromY ← toNumber B (← getProp rawFrom "y")
  let rawTo ← getProp segment "to"
  let toX ← toNumber B (← getProp rawTo "x")
  let toY ← toNumber B (← getProp rawTo "y")
  pure
    { strokeId :=
        match rawId with
        | .str s => s
        | _ => utf16 "stroke-" ++ utf16 (toString now)
      tool :=
        match rawTool with
        | .str s => if s = utf16 "eraser" then utf16 "eraser" else utf16 "brush"
        | _ => utf16 "brush"
      color :=
        match rawColor with
        | .str s => s
        | _ => utf16 "#000000"
      width := width
      segFrom := { x := fromX, y := fromY }
      segTo := { x := toX, y := toY } }

/-! ## `src/server.js`: the connection handler -/

/-- An entry of `cursorPositions`: `{ position, color, label }`. -/
structure Cursor where
  position : JSVal
  color : JSVal
  label : JSVal

/-- An element of the `user_cursors` payload: `{ id, color, position, label }`. -/
structure CursorView where
  id : JSString
  color : JSVal
  position : JSVal
  label : JSVal

/-- The module-level state of `server.js`. -/
structure ServerState where
  drawingState : DrawingState
  rooms : RoomRegistry
  cursorPositions : List (JSString × Cursor)
  canvasBackground : JSString

/-- The state when the module has been loaded. -/
def ServerState.init : ServerState :=
  { drawingState := DrawingState.new
    rooms := RoomRegistry.new
    cursorPositions := []
    canvasBackground := DEFAULT_CANVAS_BACKGROUND }

/-- The variables closed over by the handlers of one connection: `socket.id`
and `roomId`.  (`userColor` is `assignUserColor(socket.id)`.) -/
structure Conn where
  id : JSString
  roomId : JSString
  deriving DecidableEq

/-- Whom a message goes to: `socket.emit`, `io.to(roomId).emit` or
`socket.to(roomId).emit` (the room without the sender). -/
inductive Target where
  | socket (id : JSString)
  | room (roomId : JSString)
  | others (roomId : JSString) (sender : JSString)
  deriving DecidableEq

/-- What a message carries. -/
inductive Payload where
  | background (background : JSString)
  | history (operations : List Operation)
  | stroke (operation : Operation)
  | segment (segment : Segment)
  | users (list : List JSObject)
  | cursors (list : List CursorView)
  | ok
  | okLabel (label : JSVal)
  | failure (error : JSString)

/-- What a handler sends: an emitted event, or a call of the acknowledgement
callback. -/
inductive Output where
  | emit (target : Target) (event : String) (payload : Payload)
  | ack (callback : Nat) (payload : Payload)

/-- The statement `if (typeof ack === "function") ack(payload)`. -/
def callAck (ack : JSVal) (payload : Payload) : List Output :=
  match ack with
  | .func id => [.ack id payload]
  | _ => []

/-- The function `broadcastUserList(roomId)`. -/
def broadcastUserList (st : ServerState) (roomId : JSString) : ServerState × List Output :=
  let (rooms, list) := st.rooms.listUsers roomId
  ({ st with rooms := rooms }, [.emit (.room roomId) "user_list_update" (.users list)])

/-- The filter of `broadcastCursors`: the entries whose id has a presence in
the room; each test calls `rooms.getUser`. -/
def filterCursors (roomId : JSString) :
    RoomRegistry → List (JSString × Cursor) → RoomRegistry × List (JSString × Cursor)
  | reg, [] => (reg, [])
  | reg, (id, cursor) :: rest =>
    let (reg1, user) := reg.getUser roomId id
    let (reg2, kept) := filterCursors roomId reg1 rest
    (reg2, if user.isSome then (id, cursor) :: kept else kept)

/-- The map of `broadcastCursors`; the label is
`cursor.label || rooms.getUser(roomId, id)?.label || buildDefaultLabel(id)`. -/
def viewCursors (B : Builtins) (roomId : JSString) :
    RoomRegistry → List (JSString × Cursor) → RoomRegistry × List CursorView
  | reg, [] => (reg, [])
  | reg, (id, cursor) :: rest =>
    let (reg1, label) :=
      if truthy cursor.label then (reg, cursor.label)
      else
        let (reg1, user) := reg.getUser roomId id
        let userLabel :=
          match user with
          | some presence => (lookupField "label" presence).getD .undefined
          | none => .undefined
        (reg1, if truthy userLabel then userLabel else .str (buildDefaultLabel B (.str id)))
    let (reg2, views) := viewCursors B roomId reg1 rest
    (reg2, { id := id, color := cursor.color, position := cursor.position, label := label } ::
      views)

/-- The function `broadcastCursors(roomId)`. -/
def broadcastCursors (B : Builtins) (st : ServerState) (roomId : JSString) :
    ServerState × List Output :=
  let (rooms1, kept) := filterCursors roomId st.rooms st.cursorPositions
  let (rooms2, payload) := viewCursors B roomId rooms1 kept
  ({ st with rooms := rooms2 }, [.emit (.room roomId) "user_cursors" (.cursors payload)])

/-- The body of the `connection` callback up to the registration of the
handlers; `requestedRoom` is the value of
`socket.handshake && socket.handshake.auth && socket.handshake.auth.room`. -/
def onConnection (B : Builtins) (st : ServerState) (socketId : JSString)
    (requestedRoom : JSVal) : Conn × ServerState × List Output :=
  let userColor := assignUserColor B socketId
  let label := buildDefaultLabel B (.str socketId)
  let roomId :=
    match requestedRoom with
    | .str s => if !s.isEmpty then s else GLOBAL_ROOM
    | _ => GLOBAL_ROOM
  let (rooms, _) :=
    st.rooms.addUser roomId socketId (.obj [("color", userColor), ("label", .str label)])
  let st1 := { st with rooms := rooms }
  let (st2, out) := broadcastUserList st1 roomId
  ({ id := socketId, roomId := roomId }, st2,
    [.emit (.socket socketId) "canvas_cleared" (.background st1.canvasBackground),
      .emit (.socket socketId) "global_history_update" (.history st1.drawingState.getHistory)] ++
      out)

/-- The `draw_event` handler. -/
def onDrawEvent (B : Builtins) (now : Nat) (conn : Conn) (st : ServerState) (segment : JSVal) :
    Except JSError (ServerState × List Output) :=
  if !isValidSegment segment then pure (st, [])
  else do
    let sanitized ← sanitizeSegment B now segment
    pure (st, [.emit (.others conn.roomId conn.id) "draw_event" (.segment sanitized)])

/-- The `stroke_complete` handler. -/
def onStrokeComplete (B : Builtins) (now : Nat) (conn : Conn) (st : ServerState)
    (operation : JSVal) : Except JSError (ServerState × List Output) := do
  let (drawingState, normalized) ← st.drawingState.addOperation B now operation
  match normalized with
  | none => pure ({ st with drawingState := drawingState }, [])
  | some normalized =>
    pure ({ st with drawingState := drawingState },
      [.emit (.room conn.roomId) "stroke_complete" (.stroke normalized)])

/-- The `request_undo` handler. -/
def onRequestUndo (conn : Conn) (st : ServerState) : ServerState × List Output :=
  let (drawingState, history) := st.drawingState.undo
  ({ st with drawingState := drawingState },
    [.emit (.room conn.roomId) "global_history_update" (.history history)])

/-- The `request_redo` handler. -/
def onRequestRedo (conn : Conn) (st : ServerState) : ServerState × List Output :=
  let (drawingState, history) := st.drawingState.redo
  ({ st with drawingState := drawingState },
    [.emit (.room conn.roomId) "global_history_update" (.history history)])

/-- The `request_clear` handler, `(options = {}, ack) => ...`: the default
value replaces `undefined` only. -/
def onRequestClear (conn : Conn) (st : ServerState) (options ack : JSVal) :
    Except JSError (ServerState × List Output) := do
  let options :=
    match options with
    | .undefined => .obj []
    | other => other
  let requestedBackground := normalizeBackgroundColor (← getProp options "background")
  let st1 :=
    { st with canvasBackground := requestedBackground, drawingState := st.drawingState.clear }
  pure (st1,
    [.emit (.room conn.roomId) "canvas_cleared" (.background st1.canvasBackground),
      .emit (.room conn.roomId) "global_history_update" (.history st1.drawingState.getHistory)] ++
      callAck ack .ok)

/-- The function `emitDisplayNameResult(socket, payload)`. -/
def emitDisplayNameResult (conn : Conn) (payload : Payload) : List Output :=
  [.emit (.socket conn.id) "display_name_update_result" payload]

/-- The `set_display_name` handler. -/
def onSetDisplayName (B : Builtins) (conn : Conn) (st : ServerState) (rawName ack : JSVal) :
    ServerState × List Output :=
  match normalizeDisplayName rawName with
  | .fail error =>
    (st, callAck ack (.failure error) ++ emitDisplayNameResult conn (.failure error))
  | .ok value =>
    let (rooms, updatedUser) :=
      st.rooms.updateUser conn.roomId conn.id (.obj [("label", .str value)])
    let st1 := { st with rooms := rooms }
    match updatedUser with
    | none =>
      let errorMessage := utf16 "User not found."
      (st1, callAck ack (.failure errorMessage) ++
        emitDisplayNameResult conn (.failure errorMessage))
    | some updatedUser =>
      let label := (lookupField "label" updatedUser).getD .undefined
      let st2 :=
        match mapGet conn.id st1.cursorPositions with
        | some existingCursor =>
          { st1 with
            cursorPositions :=
              mapSet conn.id { existingCursor with label := label } st1.cursorPositions }
        | none => st1
      let (st3, out1) := broadcastUserList st2 conn.roomId
      let (st4, out2) := broadcastCursors B st3 conn.roomId
      (st4, out1 ++ out2 ++ callAck ack (.okLabel label) ++
        emitDisplayNameResult conn (.okLabel label))

/-- The `cursor_move` handler. -/
def onCursorMove (B : Builtins) (conn : Conn) (st : ServerState) (position : JSVal) :
    ServerState × List Output :=
  let st1 :=
    if truthy position && numberIsFinite (getPropOpt position "x") &&
        numberIsFinite (getPropOpt position "y") then
      let (rooms, userRecord) := st.rooms.getUser conn.roomId conn.id
      let userLabel :=
        match userRecord with
        | some presence => (lookupField "label" presence).getD .undefined
        | none => .undefined
      { st with
        rooms := rooms
        cursorPositions :=
          mapSet conn.id
            { position := position
              color := assignUserColor B conn.id
              label :=
                if truthy userLabel then userLabel else .str (buildDefaultLabel B (.str conn.id)) }
            st.cursorPositions }
    else { st with cursorPositions := mapDelete conn.id st.cursorPositions }
  broadcastCursors B st1 conn.roomId

/-- The `disconnect` handler. -/
def onDisconnect (B : Builtins) (conn : Conn) (st : ServerState) : ServerState × List Output :=
  let (rooms, _) := st.rooms.removeUser conn.roomId conn.id
  let st1 := { st with rooms := rooms, cursorPositions := mapDelete conn.id st.cursorPositions }
  let (st2, out1) := broadcastUserList st1 conn.roomId
  let (st3, out2) := broadcastCursors B st2 conn.roomId
  (st3, out1 ++ out2)

/-- An event delivered by the transport. -/
inductive Event where
  | connection (socketId : JSString) (requestedRoom : JSVal)
  | drawEvent (conn : Conn) (now : Nat) (segment : JSVal)
  | strokeComplete (conn : Conn) (now : Nat) (operation : JSVal)
  | requestUndo (conn : Conn)
  | requestRedo (conn : Conn)
  | requestClear (conn : Conn) (options ack : JSVal)
  | setDisplayName (conn : Conn) (rawName ack : JSVal)
  | cursorMove (conn : Conn) (position : JSVal)
  | disconnect (conn : Conn)

/-- Dispatching one event to its handler; `error` is an exception that leaves
the handler. -/
def handle (B : Builtins) (st : ServerState) : Event → Except JSError (ServerState × List Output)
  | .connection socketId requestedRoom =>
    let (_, st1, out) := onConnection B st socketId requestedRoom
    pure (st1, out)
  | .drawEvent conn now segment => onDrawEvent B now conn st segment
  | .strokeComplete conn now operation => onStrokeComplete B now conn st operation
  | .requestUndo conn => pure (onRequestUndo conn st)
  | .requestRedo conn => pure (onRequestRedo conn st)
  | .requestClear conn options ack => onRequestClear conn st options ack
  | .setDisplayName conn rawName ack => pure (onSetDisplayName B conn st rawName ack)
  | .cursorMove conn position => pure (onCursorMove B conn st position)
  | .disconnect conn => pure (onDisconnect B conn st)

/-- Processing a sequence of events one at a time; the outputs are collected in
order, and an exception leaving a handler ends the run. -/
def handleAll (B : Builtins) :
    ServerState → List Event → Except JSError (ServerState × List Output)
  | st, [] => pure (st, [])
  | st, ev :: rest =>
    match handle B st ev with
    | .error e => .error e
    | .ok (st1, out1) =>
      match handleAll B st1 rest with
      | .error e => .error e
      | .ok (st2, out2) => .ok (st2, out1 ++ out2)

/-- A stand-in for the language conversions, for evaluating examples whose
result does not depend on them. -/
def Builtins.stub : Builtins :=
  { stringToNumber := fun _ => .nan
    numberToString := fun _ => []
    functionToString := fun _ => []
    toUpperCase := fun s => s
    roundToDouble := fun n => n }

/-- A raw point `{ x: a, y: b }`. -/
def rawPoint (a b : ℚ) : JSVal := .obj [("x", .num (.fin a)), ("y", .num (.fin b))]

/-- A raw stroke with one unusable point, an eraser tool and an oversized
width. -/
def sampleStroke : JSVal :=
  .obj [("points", .arr [rawPoint 1 2, .null, rawPoint 3 4]),
    ("tool", .str (utf16 "eraser")), ("width", .num (.fin 70))]

/-- The normalized form of `sampleStroke` at time `now`. -/
def sampleOperation (now : Nat) : Operation :=
  { strokeId := DrawingState.generatedStrokeId now
    tool := utf16 "eraser"
    color := utf16 "#000000"
    width := .fin 50
    points := [⟨.fin 1, .fin 2⟩, ⟨.fin 3, .fin 4⟩] }

/-- A connection in room `"A"`. -/
def connA : Conn := { id := utf16 "socketAAAA", roomId := utf16 "A" }

/-- A connection in room `"B"`. -/
def connB : Conn := { id := utf16 "socketBBBB", roomId := utf16 "B" }

/-- Two clients join rooms `"A"` and `"B"`, the client in `"A"` completes
`sampleStroke`, then the client in `"B"` requests a redo. -/
def crossRoomEvents : List Event :=
  [.connection connA.id (.str connA.roomId), .connection connB.id (.str connB.roomId),
    .strokeComplete connA 7 sampleStroke, .requestRedo connB]

/-- A stroke with two finite points whose `width` is an object with an own
`toString` property, as `JSON.parse` produces for
`{"points":[...],"width":{"toString":null}}`. -/
def strokeWithObjectWidth : JSVal :=
  .obj [("points", .arr [rawPoint 1 2, rawPoint 3 4]), ("width", .obj [("toString", .null)])]

/-- The presence stored for `userId` in room `roomId`, if any: the read
`rooms.get(roomId)?.users.get(userId)`, which creates no room. -/
def RoomRegistry.presence (reg : RoomRegistry) (roomId userId : JSString) : Option JSObject :=
  match mapGet roomId reg.rooms with
  | some room => mapGet userId room.users
  | none => none

/-- A normalized stroke: the tool is `"brush"` or `"eraser"`, the width is a
finite number in `[1, 50]`, and there are at least two points, each with
finite `x` and `y`.  (`strokeId` and `color` are strings by their type.) -/
def Operation.Normalized (op : Operation) : Prop :=
  (op.tool = utf16 "brush" ∨ op.tool = utf16 "eraser") ∧
    (∃ w : ℚ, op.width = .fin w ∧ 1 ≤ w ∧ w ≤ 50) ∧
    2 ≤ op.points.length ∧
    ∀ p ∈ op.points, (∃ a : ℚ, p.x = .fin a) ∧ ∃ b : ℚ, p.y = .fin b

/-- The stroke ids held by a `DrawingState`, history first. -/
def DrawingState.heldIds (st : DrawingState) : List JSString :=
  (st.operationHistory ++ st.redoStack).map fun op => op.strokeId

/-- The entries of a history that are still there after one more operation
has been pushed: all of them, or all but the first when the push takes the
length over `MAX_HISTORY_LENGTH`. -/
def DrawingState.keptHistory (history : List Operation) : List Operation :=
  if history.length + 1 > MAX_HISTORY_LENGTH then history.tail else history

/-- Whether a call brings a new client id: an `addOperation` call that appends
an operation qualifies when `raw.strokeId` is a string that no operation
remaining in the history after the append has; any other call, and an
`addOperation` call that rejects or throws, qualifies. -/
def DrawingState.freshCall (B : Builtins) (st : DrawingState) : DrawingState.Call → Bool
  | .addOperation now raw =>
    match DrawingState.normalizeOperation B now raw with
    | .ok (some op) =>
      isString (getPropOpt raw "strokeId") &&
        !decide (op.strokeId ∈
          (DrawingState.keptHistory st.operationHistory).map fun o => o.strokeId)
    | _ => true
  | _ => true

/-- Whether every call of a sequence, run from the given state, brings a new
client id at the moment it is made. -/
def DrawingState.freshRun (B : Builtins) : DrawingState → List DrawingState.Call → Bool
  | _, [] => true
  | st, c :: rest => DrawingState.freshCall B st c && freshRun B (DrawingState.step B st c) rest

/-- A raw stroke with two points and the given `strokeId`. -/
def strokeWithId (id : String) : JSVal :=
  .obj [("strokeId", .str (utf16 id)), ("points", .arr [rawPoint 1 2, rawPoint 3 4])]

/-- One call on a `RoomRegistry`. -/
inductive RoomRegistry.Call where
  | addUser (roomId userId : JSString) (userData : JSVal)
  | updateUser (roomId userId : JSString) (updates : JSVal)
  | removeUser (roomId userId : JSString)
  | listUsers (roomId : JSString)
  | getUser (roomId userId : JSString)

/-- The registry after one call. -/
def RoomRegistry.step (reg : RoomRegistry) : RoomRegistry.Call → RoomRegistry
  | .addUser roomId userId userData => (reg.addUser roomId userId userData).1
  | .updateUser roomId userId updates => (reg.updateUser roomId userId updates).1
  | .removeUser roomId userId => (reg.removeUser roomId userId).1
  | .listUsers roomId => (reg.listUsers roomId).1
  | .getUser roomId userId => (reg.getUser roomId userId).1

/-- The registry after a sequence of calls on a fresh `RoomRegistry`. -/
def RoomRegistry.run (calls : List RoomRegistry.Call) : RoomRegistry :=
  calls.foldl RoomRegistry.step RoomRegistry.new

/-- Every presence stored under a key `connId`, in every room, has `id` equal
to `connId`. -/
def RoomRegistry.IdsPinned (reg : RoomRegistry) : Prop :=
  ∀ roomId room, mapGet roomId reg.rooms = some room →
    ∀ connId presence, (connId, presence) ∈ room.users →
      lookupField "id" presence = some (.str connId)

/-- A raw segment with a string `strokeId`, an eraser tool and an oversized
width. -/
def sampleSegment : JSVal :=
  .obj [("strokeId", .str (utf16 "s")), ("tool", .str (utf16 "eraser")),
    ("width", .num (.fin 70)), ("from", rawPoint 1 2), ("to", rawPoint 3 4)]

/-- A raw stroke with the `strokeId`, `tool`, `color` and `width` fields of
`sampleSegment`. -/
def sampleSegmentStroke : JSVal :=
  .obj [("strokeId", .str (utf16 "s")), ("tool", .str (utf16 "eraser")),
    ("width", .num (.fin 70)), ("points", .arr [rawPoint 1 2, rawPoint 3 4])]

/-- The normalized form of `sampleSegmentStroke`. -/
def sampleSegmentOperation : Operation :=
  { strokeId := utf16 "s"
    tool := utf16 "eraser"
    color := utf16 "#000000"
    width := .fin 50
    points := [⟨.fin 1, .fin 2⟩, ⟨.fin 3, .fin 4⟩] }

/-- The `label` property of a presence object. -/
def labelOf (presence : JSObject) : JSVal :=
  (lookupField "label" presence).getD .undefined

/-- The server states reachable through `connection`, `cursor_move`,
`set_display_name` and `disconnect` events, together with the connections
that are open and the socket ids used so far: every connection gets an id
not used before, and only an open connection sends events. -/
inductive Reach (B : Builtins) : ServerState → List Conn → List JSString → Prop where
  | init : Reach B ServerState.init [] []
  | connection {st : ServerState} {act : List Conn} {used : List JSString}
      (socketId : JSString) (requestedRoom : JSVal) :
      Reach B st act used → socketId ∉ used →
      Reach B (onConnection B st socketId requestedRoom).2.1
        ((onConnection B st socketId requestedRoom).1 :: act) (socketId :: used)
  | cursorMove {st : ServerState} {act : List Conn} {used : List JSString}
      (conn : Conn) (position : JSVal) :
      Reach B st act used → conn ∈ act → Reach B (onCursorMove B conn st position).1 act used
  | setDisplayName {st : ServerState} {act : List Conn} {used : List JSString}
      (conn : Conn) (rawName ack : JSVal) :
      Reach B st act used → conn ∈ act →
      Reach B (onSetDisplayName B conn st rawName ack).1 act used
  | disconnect {st : ServerState} {act : List Conn} {used : List JSString} (conn : Conn) :
      Reach B st act used → conn ∈ act →
      Reach B (onDisconnect B conn st).1 (act.erase conn) used

/-- What the open connections, the presences and the cursor map satisfy
together in a reachable state. -/
structure CursorInv (st : ServerState) (act : List Conn) (used : List JSString) : Prop where
  ids_nodup : (act.map fun c => c.id).Nodup
  ids_used : ∀ c ∈ act, c.id ∈ used
  keys_nodup : (st.cursorPositions.map Prod.fst).Nodup
  present : ∀ c ∈ act, ∃ p, st.rooms.presence c.roomId c.id = some p ∧ truthy (labelOf p) = true
  cursors : ∀ id cursor, (id, cursor) ∈ st.cursorPositions →
    ∃ c ∈ act, c.id = id ∧ ∃ p, st.rooms.presence c.roomId id = some p ∧ labelOf p = cursor.label

/-- The state after `connA` has connected and moved its cursor to `(1, 2)`. -/
def sampleReached : ServerState :=
  (onCursorMove Builtins.stub connA
    (onConnection Builtins.stub ServerState.init connA.id (.str connA.roomId)).2.1
    (rawPoint 1 2)).1

/-! # Properties -/

/-! ## Reading properties and converting points -/

theorem getProp_of_truthy {v : JSVal} (h : truthy v = true) (k : String) :
    getProp v k = .ok (getPropOpt v k) := by
  cases v <;> simp_all [getProp, getPropOpt, truthy]

theorem eq_nil_or_snoc {α : Type} (l : List α) : l = [] ∨ ∃ xs x, l = xs ++ [x] := by
  rcases List.eq_nil_or_concat l with h | ⟨xs, x, h⟩
  · exact Or.inl h
  · exact Or.inr ⟨xs, x, by rw [h, List.concat_eq_append]⟩

theorem mapThrowing_length {α β : Type} (f : α → Except JSError β) :
    ∀ (l : List α) (ys : List β), mapThrowing f l = .ok ys → ys.length = l.length
  | [], ys, h => by
    simp only [mapThrowing, Except.ok.injEq] at h
    subst h; rfl
  | x :: l, ys, h => by
    simp only [mapThrowing] at h
    cases hx : f x with
    | error e => simp [hx] at h
    | ok y =>
      cases hl : mapThrowing f l with
      | error e => simp [hx, hl] at h
      | ok zs =>
        simp only [hx, hl, Except.ok.injEq] at h
        subst h
        simp [mapThrowing_length f l zs hl]

namespace DrawingState

theorem toPoint_of_finite (B : Builtins) (point : JSVal) (h : pointIsFinite point = true) :
    ∃ p, toPoint B point = .ok p ∧ SameCoords point p := by
  cases point with
  | obj fields =>
    simp only [pointIsFinite, getPropOpt, Bool.and_eq_true] at h
    obtain ⟨hx, hy⟩ := h
    cases ex : (lookupField "x" fields).getD .undefined with
    | num nx =>
      cases ey : (lookupField "y" fields).getD .undefined with
      | num ny =>
        refine ⟨⟨nx, ny⟩, ?_, ?_⟩
        · simp [toPoint, getProp, ex, ey, toNumber, bind, Except.bind, pure, Except.pure]
        · simp [SameCoords, getPropOpt, ex, ey]
      | _ => simp [ey, numberIsFinite] at hy
    | _ => simp [ex, numberIsFinite] at hx
  | _ => simp [pointIsFinite, getPropOpt, numberIsFinite] at h

theorem mapThrowing_toPoint_filter (B : Builtins) (xs : List JSVal) :
    ∃ pts, mapThrowing (toPoint B) (xs.filter pointIsFinite) = .ok pts ∧
      List.Forall₂ SameCoords (xs.filter pointIsFinite) pts := by
  induction xs with
  | nil => exact ⟨[], rfl, List.Forall₂.nil⟩
  | cons x xs ih =>
    obtain ⟨pts, hpts, hrel⟩ := ih
    by_cases hx : pointIsFinite x = true
    · obtain ⟨p, hp, hc⟩ := toPoint_of_finite B x hx
      refine ⟨p :: pts, ?_, ?_⟩
      · simp [List.filter_cons, hx, mapThrowing, hp, hpts]
      · simp only [List.filter_cons, hx, if_true]
        exact List.Forall₂.cons hc hrel
    · refine ⟨pts, ?_, ?_⟩
      · simp only [List.filter_cons, hx]; simpa using hpts
      · simp only [List.filter_cons, hx]; simpa using hrel

theorem normalizeOperation_not_array (B : Builtins) (now : Nat) (raw : JSVal)
    (h : ∀ xs, getPropOpt raw "points" ≠ .arr xs) : normalizeOperation B now raw = .ok none := by
  unfold normalizeOperation
  by_cases ht : truthy raw = true
  · simp only [ht, getProp_of_truthy ht, Bool.not_true, Bool.false_eq_true, if_false, bind,
      Except.bind]
    cases hp : getPropOpt raw "points" with
    | arr xs => exact absurd hp (h xs)
    | _ => rfl
  · simp [ht, pure, Except.pure]

theorem normalizeOperation_falsy (B : Builtins) (now : Nat) (raw : JSVal)
    (h : truthy raw = false) : normalizeOperation B now raw = .ok none := by
  unfold normalizeOperation
  simp [h, pure, Except.pure]

theorem normalizeOperation_eq (B : Builtins) (now : Nat) (raw : JSVal) (xs : List JSVal)
    (pts : List Point) (ht : truthy raw = true) (hp : getPropOpt raw "points" = .arr xs)
    (hpts : mapThrowing (toPoint B) (xs.filter pointIsFinite) = .ok pts) :
    normalizeOperation B now raw =
      if pts.length < 2 then .ok none
      else
        match toNumber B (getPropOpt raw "width") with
        | .error e => .error e
        | .ok width => .ok (some (built now raw width pts)) := by
  have hlen : pts.length ≤ xs.length := by
    rw [mapThrowing_length _ _ _ hpts]
    exact List.length_filter_le _ _
  unfold normalizeOperation
  simp only [ht, getProp_of_truthy ht, hp, bind, Except.bind, pure, Except.pure, Bool.not_true,
    Bool.false_eq_true, if_false, hpts]
  by_cases h2 : xs.length < 2
  · have : pts.length < 2 := by omega
    simp [h2, this]
  · simp only [h2, if_false]
    by_cases h3 : pts.length < 2
    · simp [h3]
    · simp only [h3, if_false]
      cases hw : toNumber B (getPropOpt raw "width") with
      | error e => rfl
      | ok w => rfl

theorem clampFinite_eq (w : ℚ) :
    clampFinite w = if w < 1 then 1 else if 50 < w then 50 else w := by
  unfold clampFinite
  split_ifs with h1 h2
  · rw [max_eq_left h1.le]; norm_num
  · rw [max_eq_right (not_lt.mp h1), min_eq_left h2.le]
  · rw [max_eq_right (not_lt.mp h1), min_eq_right (not_lt.mp h2)]

theorem clampFinite_bounds (w : ℚ) : 1 ≤ clampFinite w ∧ clampFinite w ≤ 50 :=
  ⟨le_min (by norm_num) (le_max_left _ _), min_le_left _ _⟩

theorem normalizeOperation_some {B : Builtins} {now : Nat} {raw : JSVal} {op : Operation}
    (h : normalizeOperation B now raw = .ok (some op)) :
    ∃ xs pts w, getPropOpt raw "points" = .arr xs ∧
      List.Forall₂ SameCoords (xs.filter pointIsFinite) pts ∧ 2 ≤ pts.length ∧
      toNumber B (getPropOpt raw "width") = .ok w ∧ op = built now raw w pts := by
  by_cases ht : truthy raw = true
  · by_cases hp : ∃ xs, getPropOpt raw "points" = .arr xs
    · obtain ⟨xs, hxs⟩ := hp
      obtain ⟨pts, hpts, hrel⟩ := mapThrowing_toPoint_filter B xs
      rw [normalizeOperation_eq B now raw xs pts ht hxs hpts] at h
      by_cases hlt : pts.length < 2
      · simp [hlt] at h
      · rw [if_neg hlt] at h
        cases hw : toNumber B (getPropOpt raw "width") with
        | error e => simp [hw] at h
        | ok w =>
          simp only [hw, Except.ok.injEq, Option.some.injEq] at h
          exact ⟨xs, pts, w, hxs, hrel, not_lt.mp hlt, rfl, h.symm⟩
    · rw [normalizeOperation_not_array B now raw fun xs hxs => hp ⟨xs, hxs⟩] at h
      simp at h
  · rw [normalizeOperation_falsy B now raw (by simpa using ht)] at h
    simp at h

theorem addOperation_ok_none {B : Builtins} {now : Nat} {st st' : DrawingState} {raw : JSVal}
    (h : addOperation B now st raw = .ok (st', none)) :
    st' = st ∧ normalizeOperation B now raw = .ok none := by
  unfold addOperation at h
  cases hn : normalizeOperation B now raw with
  | error e => simp [hn] at h
  | ok r =>
    cases r with
    | none => simp only [hn, Except.ok.injEq, Prod.mk.injEq] at h; exact ⟨h.1.symm, rfl⟩
    | some op => simp [hn] at h

theorem addOperation_ok_some {B : Builtins} {now : Nat} {st st' : DrawingState} {raw : JSVal}
    {op : Operation} (h : addOperation B now st raw = .ok (st', some op)) :
    normalizeOperation B now raw = .ok (some op) ∧
      st' = { operationHistory := pushBounded st.operationHistory op, redoStack := [] } := by
  unfold addOperation at h
  cases hn : normalizeOperation B now raw with
  | error e => simp [hn] at h
  | ok r =>
    cases r with
    | none => simp [hn] at h
    | some op' =>
      simp only [hn, Except.ok.injEq, Prod.mk.injEq, Option.some.injEq] at h
      obtain ⟨h1, h2⟩ := h
      subst h2
      exact ⟨rfl, h1.symm⟩

/-- C1: `addOperation(raw)` returns `null` exactly when `raw` is falsy, or
`raw.points` is not an array, or fewer than two elements of `raw.points` have
finite `x` and finite `y`; and a call that returns `null` leaves
`operationHistory` and `redoStack` as they were. -/
theorem addOperation_rejects_iff (B : Builtins) (now : Nat) (st : DrawingState) (raw : JSVal) :
    ((∃ st', addOperation B now st raw = .ok (st', none)) ↔
      (truthy raw = false ∨ (∀ xs, getPropOpt raw "points" ≠ .arr xs) ∨
        ∃ xs, getPropOpt raw "points" = .arr xs ∧ xs.countP pointIsFinite < 2)) ∧
    ∀ st', addOperation B now st raw = .ok (st', none) →
      st'.operationHistory = st.operationHistory ∧ st'.redoStack = st.redoStack := by
  refine ⟨⟨?_, ?_⟩, fun st' h => by rw [(addOperation_ok_none h).1]; exact ⟨rfl, rfl⟩⟩
  · rintro ⟨st', h⟩
    have hn := (addOperation_ok_none h).2
    by_cases ht : truthy raw = true
    · right
      by_cases hp : ∃ xs, getPropOpt raw "points" = .arr xs
      · right
        obtain ⟨xs, hxs⟩ := hp
        refine ⟨xs, hxs, ?_⟩
        obtain ⟨pts, hpts, -⟩ := mapThrowing_toPoint_filter B xs
        rw [normalizeOperation_eq B now raw xs pts ht hxs hpts] at hn
        rw [List.countP_eq_length_filter, ← mapThrowing_length _ _ _ hpts]
        by_contra hlt
        rw [if_neg hlt] at hn
        cases hw : toNumber B (getPropOpt raw "width") <;> simp [hw] at hn
      · left
        intro xs hxs
        exact hp ⟨xs, hxs⟩
    · left
      simpa using ht
  · intro h
    refine ⟨st, ?_⟩
    have hn : normalizeOperation B now raw = .ok none := by
      rcases h with ht | hp | ⟨xs, hxs, hc⟩
      · exact normalizeOperation_falsy B now raw ht
      · exact normalizeOperation_not_array B now raw hp
      · by_cases ht : truthy raw = true
        · obtain ⟨pts, hpts, -⟩ := mapThrowing_toPoint_filter B xs
          rw [normalizeOperation_eq B now raw xs pts ht hxs hpts]
          rw [List.countP_eq_length_filter, ← mapThrowing_length _ _ _ hpts] at hc
          simp [hc]
        · exact normalizeOperation_falsy B now raw (by simpa using ht)
    simp [addOperation, hn]

/-- C2: an operation returned by `addOperation(raw)` has tool `"brush"` or
`"eraser"` (`"eraser"` exactly when `raw.tool` is `"eraser"`), a width in
`[1, 50]` that is `Number(raw.width)` clamped to that interval (or `1` when
that number is not finite), the color `raw.color` when that is a string and
`"#000000"` otherwise, the stroke id `raw.strokeId` when that is a string,
and as points the coordinates of those elements of `raw.points` whose `x`
and `y` are finite, in their order, at least two of them. -/
theorem addOperation_accepted_fields (B : Builtins) (now : Nat) (st st' : DrawingState)
    (raw : JSVal) (op : Operation) (h : addOperation B now st raw = .ok (st', some op)) :
    (op.tool = utf16 "brush" ∨ op.tool = utf16 "eraser") ∧
    (op.tool = utf16 "eraser" ↔ getPropOpt raw "tool" = .str (utf16 "eraser")) ∧
    (∃ w : ℚ, op.width = .fin w ∧ 1 ≤ w ∧ w ≤ 50) ∧
    (∃ n, toNumber B (getPropOpt raw "width") = .ok n ∧
      op.width =
        match n with
        | .fin w => .fin (if w < 1 then 1 else if 50 < w then 50 else w)
        | _ => .fin 1) ∧
    (∀ s, getPropOpt raw "color" = .str s → op.color = s) ∧
    ((∀ s, getPropOpt raw "color" ≠ .str s) → op.color = utf16 "#000000") ∧
    (∀ s, getPropOpt raw "strokeId" = .str s → op.strokeId = s) ∧
    (∃ xs, getPropOpt raw "points" = .arr xs ∧
      List.Forall₂ SameCoords (xs.filter pointIsFinite) op.points) ∧
    2 ≤ op.points.length := by
  obtain ⟨xs, pts, w, hxs, hrel, hlen, hw, rfl⟩ := normalizeOperation_some (addOperation_ok_some h).1
  refine ⟨?_, ?_, ?_, ⟨w, hw, ?_⟩, ?_, ?_, ?_, ⟨xs, hxs, hrel⟩, hlen⟩
  · simp only [built]
    split
    · split
      · exact Or.inr rfl
      · exact Or.inl rfl
    · exact Or.inl rfl
  · simp only [built]
    split
    · rename_i s hs
      rw [hs]
      split
      · rename_i he; simp [he]
      · rename_i he
        constructor
        · intro hb; exact absurd hb (by decide)
        · intro hb; exact absurd (JSVal.str.inj hb) he
    · rename_i hs
      constructor
      · intro hb; exact absurd hb (by decide)
      · intro hb; exact absurd hb (hs _)
  · cases w with
    | fin q => exact ⟨clampFinite q, rfl, clampFinite_bounds q⟩
    | _ => exact ⟨1, rfl, le_refl _, by norm_num⟩
  · cases w with
    | fin q => simp only [built, clampNum, clampFinite_eq]
    | _ => rfl
  · intro s hs; simp only [built, hs]
  · intro hs
    simp only [built]
  · intro s hs; simp only [built, hs]

/-- C2 at `sampleStroke`: the stroke is accepted and normalizes to
`sampleOperation`. -/
theorem addOperation_accepted_fields_witness :
    addOperation Builtins.stub 7 new sampleStroke =
        .ok ({ operationHistory := [sampleOperation 7], redoStack := [] },
          some (sampleOperation 7)) ∧
      (sampleOperation 7).tool = utf16 "eraser" ∧
      2 ≤ (sampleOperation 7).points.length :=
  have h : addOperation Builtins.stub 7 new sampleStroke =
      .ok ({ operationHistory := [sampleOperation 7], redoStack := [] },
        some (sampleOperation 7)) := rfl
  ⟨h, rfl,
    (addOperation_accepted_fields Builtins.stub 7 new _ sampleStroke _ h).2.2.2.2.2.2.2.2⟩

/-! ## Undo, redo and the history bound -/

theorem getHistory_eq (st : DrawingState) : st.getHistory = st.operationHistory := by
  unfold getHistory
  have hp : ∀ ps : List Point, ps.map (fun point => ({ x := point.x, y := point.y } : Point)) = ps :=
    fun ps => List.map_id ps
  have ho : ∀ ops : List Operation, ops.map (fun operation =>
      ({ strokeId := operation.strokeId, tool := operation.tool, color := operation.color,
         width := operation.width,
         points := operation.points.map fun point => { x := point.x, y := point.y } } :
        Operation)) = ops := by
    intro ops
    induction ops with
    | nil => rfl
    | cons o os ih => rw [List.map_cons, ih, hp]
  exact ho _

theorem pushBounded_length_le (history : List Operation) (op : Operation)
    (h : history.length ≤ MAX_HISTORY_LENGTH) :
    (pushBounded history op).length ≤ MAX_HISTORY_LENGTH := by
  unfold pushBounded
  simp only [List.length_append, List.length_singleton]
  split
  · simp only [List.length_tail, List.length_append, List.length_singleton]; omega
  · simp only [List.length_append, List.length_singleton]; omega

theorem pushBounded_ne_nil (history : List Operation) (op : Operation) :
    pushBounded history op ≠ [] ∧ (pushBounded history op).getLast? = some op := by
  unfold pushBounded
  simp only [List.length_append, List.length_singleton]
  split
  · rename_i hgt
    cases history with
    | nil => simp [MAX_HISTORY_LENGTH] at hgt
    | cons x xs => simp
  · simp

theorem undo_of_ne_nil (st : DrawingState) (hist : List Operation) (op : Operation)
    (h : st.operationHistory = hist ++ [op]) :
    (undo st).1 = { operationHistory := hist, redoStack := st.redoStack ++ [op] } := by
  unfold undo
  simp [h]

theorem redo_of_ne_nil (st : DrawingState) (stack : List Operation) (op : Operation)
    (h : st.redoStack = stack ++ [op]) :
    (redo st).1 = { operationHistory := st.operationHistory ++ [op], redoStack := stack } := by
  unfold redo
  simp [h]

theorem undo_snd (st : DrawingState) : (undo st).2 = (undo st).1.getHistory := by
  unfold undo
  split
  · rfl
  · split <;> rfl

theorem redo_snd (st : DrawingState) : (redo st).2 = (redo st).1.getHistory := by
  unfold redo
  split
  · rfl
  · split <;> rfl

theorem redo_of_nil (st : DrawingState) (h : st.redoStack = []) : (redo st).1 = st := by
  unfold redo
  simp [h]

/-- The quantity that the calls keep bounded: the two arrays together hold at
most `MAX_HISTORY_LENGTH` operations. -/
theorem step_total_le (B : Builtins) (st : DrawingState) (c : Call)
    (h : st.operationHistory.length + st.redoStack.length ≤ MAX_HISTORY_LENGTH) :
    (step B st c).operationHistory.length + (step B st c).redoStack.length ≤
      MAX_HISTORY_LENGTH := by
  cases c with
  | addOperation now raw =>
    simp only [step]
    cases ha : addOperation B now st raw with
    | error e => exact h
    | ok r =>
      obtain ⟨st', ret⟩ := r
      cases ret with
      | none => rw [(addOperation_ok_none ha).1]; exact h
      | some op =>
        rw [(addOperation_ok_some ha).2]
        simpa using pushBounded_length_le st.operationHistory op (by omega)
  | undo =>
    simp only [step]
    rcases eq_nil_or_snoc st.operationHistory with hnil | ⟨hist, op, hh⟩
    · simp only [undo, hnil, List.length_nil, if_true]
      simpa [hnil] using h
    · rw [undo_of_ne_nil st hist op hh]
      simp only [hh, List.length_append, List.length_singleton] at h ⊢
      omega
  | redo =>
    simp only [step]
    rcases eq_nil_or_snoc st.redoStack with hnil | ⟨stack, op, hh⟩
    · rw [redo_of_nil st hnil]; exact h
    · rw [redo_of_ne_nil st stack op hh]
      simp only [hh, List.length_append, List.length_singleton] at h ⊢
      omega
  | getHistory => exact h
  | clear => simp [step, clear]

theorem foldl_step_total_le (B : Builtins) (calls : List Call) :
    ∀ st : DrawingState,
      st.operationHistory.length + st.redoStack.length ≤ MAX_HISTORY_LENGTH →
      (calls.foldl (step B) st).operationHistory.length +
        (calls.foldl (step B) st).redoStack.length ≤ MAX_HISTORY_LENGTH := by
  induction calls with
  | nil => intro st h; exact h
  | cons c cs ih => intro st h; exact ih _ (step_total_le B st c h)

/-- C3: after any sequence of `addOperation`, `undo`, `redo`, `getHistory` and
`clear` calls on a fresh `DrawingState`, with arbitrary arguments,
`operationHistory` holds at most 10,000 entries; a `redo` in particular
leaves it within that bound. -/
theorem run_history_le (B : Builtins) (calls : List Call) :
    (run B calls).operationHistory.length ≤ 10000 ∧
      (redo (run B calls)).1.operationHistory.length ≤ 10000 := by
  have h := foldl_step_total_le B calls new (by simp [new])
  have h' := step_total_le B (run B calls) .redo h
  simp only [step] at h'
  simp only [MAX_HISTORY_LENGTH] at h h'
  constructor
  · unfold run; omega
  · omega

/-- C6: on a non-empty history, `undo()` followed at once by `redo()` restores
both arrays, and that `redo()` returns the snapshot of the original
history. -/
theorem redo_undo (st : DrawingState) (h : st.operationHistory ≠ []) :
    (redo (undo st).1).1.operationHistory = st.operationHistory ∧
      (redo (undo st).1).1.redoStack = st.redoStack ∧
      (redo (undo st).1).2 = st.getHistory := by
  rcases eq_nil_or_snoc st.operationHistory with hnil | ⟨hist, op, hh⟩
  · exact absurd hnil h
  · have hu := undo_of_ne_nil st hist op hh
    have hr := redo_of_ne_nil (undo st).1 st.redoStack op (by rw [hu])
    have hst : (redo (undo st).1).1 = st := by
      rw [hr, hu]
      cases st
      simp only at hh
      simp [hh]
    rw [redo_snd, hst]
    exact ⟨rfl, rfl, rfl⟩

/-- C6 on a state with two strokes in the history and one in the redo
buffer. -/
theorem redo_undo_witness :
    ({ operationHistory := [sampleOperation 1, sampleOperation 2],
       redoStack := [sampleOperation 3] } : DrawingState).operationHistory ≠ [] ∧
      (redo (undo { operationHistory := [sampleOperation 1, sampleOperation 2],
                    redoStack := [sampleOperation 3] }).1).2 =
        [sampleOperation 1, sampleOperation 2] :=
  ⟨by simp, by
    rw [(redo_undo { operationHistory := [sampleOperation 1, sampleOperation 2],
                     redoStack := [sampleOperation 3] } (by simp)).2.2, getHistory_eq]⟩

/-- C7: after an `addOperation` that returns an operation, `redoStack` is
empty whatever it held before, and an immediately following `redo()` changes
neither array and returns a snapshot ending with that operation. -/
theorem redo_after_addOperation (B : Builtins) (now : Nat) (st st' : DrawingState)
    (raw : JSVal) (op : Operation) (h : addOperation B now st raw = .ok (st', some op)) :
    st'.redoStack = [] ∧
      (redo st').1.operationHistory = st'.operationHistory ∧
      (redo st').1.redoStack = st'.redoStack ∧
      (redo st').2.getLast? = some op := by
  have hst := (addOperation_ok_some h).2
  have hnil : st'.redoStack = [] := by rw [hst]
  have hr := redo_of_nil st' hnil
  refine ⟨hnil, by rw [hr], by rw [hr], ?_⟩
  rw [redo_snd, hr, getHistory_eq, hst]
  exact (pushBounded_ne_nil _ _).2

/-- C7 on a state whose redo buffer holds a stroke before the call. -/
theorem redo_after_addOperation_witness :
    (redo { operationHistory := [sampleOperation 1, sampleOperation 7],
            redoStack := [] }).2.getLast? = some (sampleOperation 7) :=
  (redo_after_addOperation Builtins.stub 7
    { operationHistory := [sampleOperation 1], redoStack := [sampleOperation 2] }
    { operationHistory := [sampleOperation 1, sampleOperation 7], redoStack := [] }
    sampleStroke (sampleOperation 7) rfl).2.2.2

/-- C8: when `addOperation` accepts a stroke normalizing to `n`, a history of
exactly 10,000 entries becomes its entries 1 to 9,999 followed by `n` (still
10,000 entries), and a history of fewer than 10,000 entries becomes itself
followed by `n`. -/
theorem addOperation_history (B : Builtins) (now : Nat) (st : DrawingState) (raw : JSVal)
    (n : Operation) (h : normalizeOperation B now raw = .ok (some n)) :
    ∃ st', addOperation B now st raw = .ok (st', some n) ∧
      (st.operationHistory.length = 10000 →
        st'.operationHistory = st.operationHistory.drop 1 ++ [n] ∧
          st'.operationHistory.length = 10000) ∧
      (st.operationHistory.length < 10000 →
        st'.operationHistory = st.operationHistory ++ [n]) := by
  refine ⟨{ operationHistory := pushBounded st.operationHistory n, redoStack := [] }, ?_, ?_, ?_⟩
  · simp [addOperation, h]
  · intro hlen
    have hne : st.operationHistory ≠ [] := by
      intro hnil; rw [hnil] at hlen; simp at hlen
    obtain ⟨x, xs, hx⟩ := List.exists_cons_of_ne_nil hne
    simp only [pushBounded, List.length_append, List.length_singleton, hlen, MAX_HISTORY_LENGTH]
    rw [hx] at hlen ⊢
    simp only [List.length_cons] at hlen
    simp [hlen]
  · intro hlen
    simp only [pushBounded, List.length_append, List.length_singleton, MAX_HISTORY_LENGTH]
    rw [if_neg (by omega)]

/-- C8 on a full history: 10,000 copies of one stroke, to which
`sampleStroke` is appended. -/
theorem addOperation_history_witness :
    ∃ st', addOperation Builtins.stub 7
        { operationHistory := List.replicate 10000 (sampleOperation 1), redoStack := [] }
        sampleStroke = .ok (st', some (sampleOperation 7)) ∧
      st'.operationHistory = List.replicate 9999 (sampleOperation 1) ++ [sampleOperation 7] := by
  obtain ⟨st', h1, h2, -⟩ := addOperation_history Builtins.stub 7
    { operationHistory := List.replicate 10000 (sampleOperation 1), redoStack := [] }
    sampleStroke (sampleOperation 7) rfl
  refine ⟨st', h1, ?_⟩
  rw [(h2 (List.length_replicate _ _)).1]
  show List.drop 1 (List.replicate 10000 (sampleOperation 1)) ++ [sampleOperation 7] = _
  rw [List.drop_replicate]

end DrawingState

/-! ## Display names and background colors -/

theorem normalizeDisplayName_str (s : JSString) :
    normalizeDisplayName (.str s) =
      if (jsTrim s).length < 2 then .fail (utf16 "Display name must be at least 2 characters.")
      else if (cleanedName s).isEmpty then .fail (utf16 "Display name cannot be empty.")
      else if (cleanedName s).length > 32 then
        .fail (utf16 "Display name must be 32 characters or less.")
      else .ok (cleanedName s) := rfl

theorem normalizeDisplayName_not_str (v : JSVal) (h : ∀ s, v ≠ .str s) :
    normalizeDisplayName v = .fail (utf16 "Display name must be text.") := by
  cases v with
  | str s => exact absurd rfl (h s)
  | _ => rfl

/-- C9 (as stated): on `"<script>alert(1)</script>"` the result of
`normalizeBackgroundColor` is not the default `"#ffffff"`. -/
theorem normalizeBackgroundColor_script_ne_default :
    normalizeBackgroundColor (.str (utf16 "<script>alert(1)</script>")) ≠ utf16 "#ffffff" := by
  decide

/-- C9 (amended): `normalizeBackgroundColor` removes only `<` and `>` from
`"<script>alert(1)</script>"`; the letters, digit, parentheses and slash are
all allowed, so the result is `"scriptalert(1)/script"`. -/
theorem normalizeBackgroundColor_script :
    normalizeBackgroundColor (.str (utf16 "<script>alert(1)</script>")) =
      utf16 "scriptalert(1)/script" := by
  decide

/-- C10: `normalizeDisplayName` is total and returns `{ ok: true, value: c }`
exactly when the input is a string whose trimmed form has at least 2 code
units and whose cleaned form `c` is non-empty and at most 32 long; otherwise
it returns `{ ok: false, error }`.  `"ab"` gives `"ab"`, `" John   Doe! "`
gives `"John Doe"`, and `"a"`, 33 letters and the number 123 are rejected. -/
theorem normalizeDisplayName_accepts_iff :
    (∀ (v : JSVal) (c : JSString), normalizeDisplayName v = .ok c ↔
      ∃ s, v = .str s ∧ 2 ≤ (jsTrim s).length ∧ c = cleanedName s ∧ c ≠ [] ∧
        c.length ≤ 32) ∧
    (∀ v : JSVal,
      (¬ ∃ s, v = .str s ∧ 2 ≤ (jsTrim s).length ∧ cleanedName s ≠ [] ∧
        (cleanedName s).length ≤ 32) →
      ∃ e, normalizeDisplayName v = .fail e) ∧
    normalizeDisplayName (.str (utf16 "ab")) = .ok (utf16 "ab") ∧
    normalizeDisplayName (.str (utf16 " John   Doe! ")) = .ok (utf16 "John Doe") ∧
    (∃ e, normalizeDisplayName (.str (utf16 "a")) = .fail e) ∧
    (∃ e, normalizeDisplayName (.str (List.replicate 33 97)) = .fail e) ∧
    (∃ e, normalizeDisplayName (.num (.fin 123)) = .fail e) := by
  have hok : ∀ (s c : JSString), normalizeDisplayName (.str s) = .ok c ↔
      2 ≤ (jsTrim s).length ∧ c = cleanedName s ∧ c ≠ [] ∧ c.length ≤ 32 := by
    intro s c
    rw [normalizeDisplayName_str]
    by_cases h1 : (jsTrim s).length < 2
    · simp only [h1, if_true]
      constructor
      · intro h; exact absurd h (by simp)
      · intro h; omega
    · by_cases h2 : (cleanedName s).isEmpty = true
      · simp only [h1, h2, if_true, if_false]
        constructor
        · intro h; exact absurd h (by simp)
        · rintro ⟨-, hc, hne, -⟩
          rw [List.isEmpty_iff] at h2
          exact absurd (hc.trans h2) hne
      · by_cases h3 : (cleanedName s).length > 32
        · simp only [h1, h2, h3, if_true, if_false, Bool.false_eq_true]
          constructor
          · intro h; exact absurd h (by simp)
          · rintro ⟨-, hc, -, hle⟩
            rw [hc] at hle; omega
        · simp only [h1, h2, h3, if_false, Bool.false_eq_true, NameResult.ok.injEq]
          rw [List.isEmpty_iff] at h2
          constructor
          · intro hc
            subst hc
            exact ⟨by omega, rfl, h2, by omega⟩
          · rintro ⟨-, hc, -, -⟩
            exact hc.symm
  refine ⟨?_, ?_, by decide, by decide, ⟨_, rfl⟩, ⟨_, rfl⟩, ⟨_, rfl⟩⟩
  · intro v c
    constructor
    · intro h
      cases v with
      | str s => exact ⟨s, rfl, (hok s c).mp h⟩
      | _ => exact absurd h (by simp [normalizeDisplayName])
    · rintro ⟨s, rfl, h⟩
      exact (hok s c).mpr h
  · intro v hv
    cases hr : normalizeDisplayName v with
    | fail e => exact ⟨e, rfl⟩
    | ok c =>
      exfalso
      cases v with
      | str s =>
        obtain ⟨h1, hc, hne, hle⟩ := (hok s c).mp hr
        subst hc
        exact hv ⟨s, rfl, h1, hne, hle⟩
      | _ => simp [normalizeDisplayName] at hr

/-! ## The connection handler -/

/-- C4 (failing input): after a client in room `"A"` completes a stroke, a
redo request from a client in room `"B"` makes the server emit
`global_history_update` to room `"B"` with that stroke in it. -/
theorem crossRoom_history_leak (B : Builtins) :
    ∃ st out, handleAll B ServerState.init crossRoomEvents = .ok (st, out) ∧
      out.getLast? =
        some (.emit (.room (utf16 "B")) "global_history_update"
          (.history [sampleOperation 7])) ∧
      handle B ServerState.init (.strokeComplete connA 7 sampleStroke) =
        .ok ({ ServerState.init with
                drawingState :=
                  { operationHistory := [sampleOperation 7], redoStack := [] } },
          [.emit (.room (utf16 "A")) "stroke_complete" (.stroke (sampleOperation 7))]) :=
  ⟨_, _, rfl, rfl, rfl⟩

/-- C5 (failing input): the `request_clear` handler throws a `TypeError` when
the client sends `null` as options, and the `stroke_complete` and
`draw_event` handlers throw when `width` is an object with an own `toString`
property. -/
theorem handlers_throw (B : Builtins) (conn : Conn) (st : ServerState) (ack : JSVal)
    (now : Nat) :
    handle B st (.requestClear conn .null ack) = .error .typeError ∧
      handle B st (.strokeComplete conn now strokeWithObjectWidth) = .error .typeError ∧
      handle B st (.drawEvent conn now
        (.obj [("from", rawPoint 1 2), ("to", rawPoint 3 4),
          ("width", .obj [("toString", .null)])])) = .error .typeError :=
  ⟨rfl, rfl, rfl⟩

/-! ## Maps and the room registry -/

theorem mapGet_mapSet {α : Type} (k k' : JSString) (v : α) (l : List (JSString × α)) :
    mapGet k' (mapSet k v l) = if k = k' then some v else mapGet k' l := by
  induction l with
  | nil => simp [mapSet, mapGet]
  | cons p rest ih =>
    obtain ⟨a, b⟩ := p
    by_cases h : a = k
    · subst h
      by_cases h2 : a = k' <;> simp [mapSet, mapGet, h2]
    · by_cases h' : a = k'
      · subst h'
        have hne : ¬ k = a := fun e => h e.symm
        simp [mapSet, mapGet, h, hne]
      · simp [mapSet, mapGet, h, h', ih]

theorem mapGet_mapDelete_ne {α : Type} (k k' : JSString) (l : List (JSString × α))
    (h : k ≠ k') : mapGet k' (mapDelete k l) = mapGet k' l := by
  induction l with
  | nil => rfl
  | cons p rest ih =>
    obtain ⟨a, b⟩ := p
    by_cases ha : a = k
    · subst ha
      simp [mapDelete, mapGet, h]
    · simp [mapDelete, mapGet, ha, ih]

theorem mapGet_eq_some_mem {α : Type} (k : JSString) (v : α) (l : List (JSString × α))
    (h : mapGet k l = some v) : (k, v) ∈ l := by
  induction l with
  | nil => simp [mapGet] at h
  | cons p rest ih =>
    obtain ⟨a, b⟩ := p
    by_cases ha : a = k
    · subst ha
      simp only [mapGet, if_true, Option.some.injEq] at h
      subst h
      exact List.mem_cons_self _ _
    · simp only [mapGet, ha, if_false] at h
      exact List.mem_cons_of_mem _ (ih h)

namespace RoomRegistry

theorem getOrCreateRoom_users (reg : RoomRegistry) (roomId userId : JSString) :
    mapGet userId (getOrCreateRoom reg roomId).2.users = reg.presence roomId userId := by
  unfold getOrCreateRoom presence
  cases h : mapGet roomId reg.rooms with
  | some room => rfl
  | none => rfl

theorem getOrCreateRoom_get (reg : RoomRegistry) (roomId : JSString) :
    mapGet roomId (getOrCreateRoom reg roomId).1.rooms = some (getOrCreateRoom reg roomId).2 := by
  unfold getOrCreateRoom
  cases h : mapGet roomId reg.rooms with
  | some room => exact h
  | none => simp [mapGet_mapSet]

theorem getOrCreateRoom_get_ne (reg : RoomRegistry) (roomId other : JSString)
    (h : roomId ≠ other) :
    mapGet other (getOrCreateRoom reg roomId).1.rooms = mapGet other reg.rooms := by
  unfold getOrCreateRoom
  cases h' : mapGet roomId reg.rooms with
  | some room => rfl
  | none => simp [mapGet_mapSet, h]

theorem getOrCreateRoom_presence (reg : RoomRegistry) (roomId r u : JSString) :
    (getOrCreateRoom reg roomId).1.presence r u = reg.presence r u := by
  by_cases h : roomId = r
  · subst h
    rw [← getOrCreateRoom_users reg roomId u]
    show (match mapGet roomId (getOrCreateRoom reg roomId).1.rooms with
      | some room => mapGet u room.users
      | none => none) = _
    rw [getOrCreateRoom_get]
  · unfold presence
    rw [getOrCreateRoom_get_ne reg roomId r h]

theorem getUser_snd (reg : RoomRegistry) (roomId userId : JSString) :
    (getUser reg roomId userId).2 = reg.presence roomId userId :=
  getOrCreateRoom_users reg roomId userId

theorem getUser_presence (reg : RoomRegistry) (roomId userId r u : JSString) :
    (getUser reg roomId userId).1.presence r u = reg.presence r u :=
  getOrCreateRoom_presence reg roomId r u

theorem listUsers_presence (reg : RoomRegistry) (roomId r u : JSString) :
    (listUsers reg roomId).1.presence r u = reg.presence r u :=
  getOrCreateRoom_presence reg roomId r u

end RoomRegistry

/-! ## Cursor snapshots -/

theorem filterCursors_spec (roomId : JSString) (cursors : List (JSString × Cursor)) :
    ∀ reg : RoomRegistry,
      (filterCursors roomId reg cursors).2 =
          cursors.filter (fun p => (reg.presence roomId p.1).isSome) ∧
        ∀ r u, (filterCursors roomId reg cursors).1.presence r u = reg.presence r u := by
  induction cursors with
  | nil => intro reg; exact ⟨rfl, fun _ _ => rfl⟩
  | cons p rest ih =>
    intro reg
    obtain ⟨id, cursor⟩ := p
    obtain ⟨h1, h2⟩ := ih (reg.getUser roomId id).1
    have hf : ∀ q : JSString × Cursor,
        ((reg.getUser roomId id).1.presence roomId q.1).isSome =
          (reg.presence roomId q.1).isSome := by
      intro q; rw [RoomRegistry.getUser_presence]
    refine ⟨?_, fun r u => by
      show (filterCursors roomId (reg.getUser roomId id).1 rest).1.presence r u = _
      rw [h2, RoomRegistry.getUser_presence]⟩
    show (if (reg.getUser roomId id).2.isSome then
        (id, cursor) :: (filterCursors roomId (reg.getUser roomId id).1 rest).2
      else (filterCursors roomId (reg.getUser roomId id).1 rest).2) = _
    simp only [h1, hf, RoomRegistry.getUser_snd, List.filter_cons]

theorem viewCursors_spec (B : Builtins) (roomId : JSString)
    (cursors : List (JSString × Cursor)) :
    ∀ reg : RoomRegistry,
      (viewCursors B roomId reg cursors).2.map (fun view => view.id) = cursors.map Prod.fst ∧
        ∀ r u, (viewCursors B roomId reg cursors).1.presence r u = reg.presence r u := by
  induction cursors with
  | nil => intro reg; exact ⟨rfl, fun _ _ => rfl⟩
  | cons p rest ih =>
    intro reg
    obtain ⟨id, cursor⟩ := p
    simp only [viewCursors]
    by_cases ht : truthy cursor.label = true
    · simp only [ht, if_true]
      obtain ⟨h1, h2⟩ := ih reg
      exact ⟨by simp [h1], h2⟩
    · simp only [ht, Bool.false_eq_true, if_false]
      obtain ⟨h1, h2⟩ := ih (reg.getUser roomId id).1
      exact ⟨by simp [h1], fun r u => by rw [h2, RoomRegistry.getUser_presence]⟩

theorem broadcastCursors_eq (B : Builtins) (st : ServerState) (roomId : JSString) :
    broadcastCursors B st roomId =
      ({ st with
          rooms := (viewCursors B roomId (filterCursors roomId st.rooms st.cursorPositions).1
            (filterCursors roomId st.rooms st.cursorPositions).2).1 },
        [.emit (.room roomId) "user_cursors"
          (.cursors (viewCursors B roomId (filterCursors roomId st.rooms st.cursorPositions).1
            (filterCursors roomId st.rooms st.cursorPositions).2).2)]) := rfl

/-- C11: the payload that `broadcastCursors(R)` emits lists exactly the cursor
entries whose id has a presence in room `R` (as `rooms.getUser(R, id)`
reports), in the order of the cursor map; so every entry's id has a presence
in `R`, and an id with a cursor entry but no presence in `R` is not in the
payload. -/
theorem broadcastCursors_payload (B : Builtins) (st : ServerState) (roomId : JSString) :
    ∃ st' payload,
      broadcastCursors B st roomId =
          (st', [.emit (.room roomId) "user_cursors" (.cursors payload)]) ∧
        payload.map (fun view => view.id) =
          (st.cursorPositions.filter fun p => (st.rooms.getUser roomId p.1).2.isSome).map
            Prod.fst ∧
        (∀ view ∈ payload, (st.rooms.getUser roomId view.id).2.isSome = true) ∧
        ∀ id, (st.rooms.getUser roomId id).2 = none → ∀ view ∈ payload, view.id ≠ id := by
  have hids : (viewCursors B roomId (filterCursors roomId st.rooms st.cursorPositions).1
      (filterCursors roomId st.rooms st.cursorPositions).2).2.map (fun view => view.id) =
      (st.cursorPositions.filter fun p => (st.rooms.getUser roomId p.1).2.isSome).map
        Prod.fst := by
    rw [(viewCursors_spec B roomId _ _).1, (filterCursors_spec roomId _ st.rooms).1]
    simp only [RoomRegistry.getUser_snd]
  have hmem : ∀ view ∈ (viewCursors B roomId
      (filterCursors roomId st.rooms st.cursorPositions).1
      (filterCursors roomId st.rooms st.cursorPositions).2).2,
      (st.rooms.getUser roomId view.id).2.isSome = true := by
    intro view hv
    have : view.id ∈ (st.cursorPositions.filter fun p =>
        (st.rooms.getUser roomId p.1).2.isSome).map Prod.fst := by
      rw [← hids]; exact List.mem_map_of_mem _ hv
    obtain ⟨p, hp, hpid⟩ := List.mem_map.mp this
    rw [← hpid]
    exact (List.mem_filter.mp hp).2
  refine ⟨_, _, broadcastCursors_eq B st roomId, hids, hmem, ?_⟩
  intro id hnone view hv hid
  have := hmem view hv
  rw [hid, hnone] at this
  exact absurd this (by simp)

/-! ## Every stored operation is normalized -/

namespace DrawingState

theorem finite_of_sameCoords {raw : JSVal} {p : Point} (hf : pointIsFinite raw = true)
    (h : SameCoords raw p) : (∃ a : ℚ, p.x = .fin a) ∧ ∃ b : ℚ, p.y = .fin b := by
  obtain ⟨hx, hy⟩ := h
  simp only [pointIsFinite, Bool.and_eq_true, hx, hy] at hf
  obtain ⟨h1, h2⟩ := hf
  constructor
  · cases hpx : p.x <;> simp [hpx, numberIsFinite] at h1 ⊢
  · cases hpy : p.y <;> simp [hpy, numberIsFinite] at h2 ⊢

theorem forall₂_sameCoords_finite (raws : List JSVal) (pts : List Point)
    (h : List.Forall₂ SameCoords raws pts) (hfin : ∀ r ∈ raws, pointIsFinite r = true) :
    ∀ p ∈ pts, (∃ a : ℚ, p.x = .fin a) ∧ ∃ b : ℚ, p.y = .fin b := by
  induction h with
  | nil => intro p hp; simp at hp
  | cons hrq _ ih =>
    intro p hp
    rcases List.mem_cons.mp hp with rfl | hp'
    · exact finite_of_sameCoords (hfin _ (List.mem_cons_self _ _)) hrq
    · exact ih (fun r' hr' => hfin r' (List.mem_cons_of_mem _ hr')) p hp'

theorem normalizeOperation_normalized {B : Builtins} {now : Nat} {raw : JSVal} {op : Operation}
    (h : normalizeOperation B now raw = .ok (some op)) : op.Normalized := by
  obtain ⟨xs, pts, w, -, hrel, hlen, -, rfl⟩ := normalizeOperation_some h
  refine ⟨?_, ?_, hlen, ?_⟩
  · simp only [built]
    split
    · split
      · exact Or.inr rfl
      · exact Or.inl rfl
    · exact Or.inl rfl
  · cases w with
    | fin q => exact ⟨clampFinite q, rfl, clampFinite_bounds q⟩
    | _ => exact ⟨1, rfl, le_refl _, by norm_num⟩
  · exact forall₂_sameCoords_finite _ _ hrel fun r hr => (List.mem_filter.mp hr).2

theorem mem_pushBounded {history : List Operation} {op x : Operation}
    (h : x ∈ pushBounded history op) : x ∈ history ∨ x = op := by
  have hx : x ∈ history ++ [op] := by
    by_cases hlen : (history ++ [op]).length > MAX_HISTORY_LENGTH
    · have : pushBounded history op = (history ++ [op]).tail := by
        simp only [pushBounded, hlen, if_true]
      rw [this] at h
      exact List.mem_of_mem_tail h
    · have : pushBounded history op = history ++ [op] := by
        simp only [pushBounded, hlen, if_false]
      rw [this] at h
      exact h
  rcases List.mem_append.mp hx with h1 | h1
  · exact Or.inl h1
  · exact Or.inr (List.mem_singleton.mp h1)

theorem step_normalized (B : Builtins) (st : DrawingState) (c : Call)
    (h : ∀ op ∈ st.operationHistory ++ st.redoStack, op.Normalized) :
    ∀ op ∈ (step B st c).operationHistory ++ (step B st c).redoStack, op.Normalized := by
  cases c with
  | addOperation now raw =>
    simp only [step]
    cases ha : addOperation B now st raw with
    | error e => exact h
    | ok r =>
      obtain ⟨st', ret⟩ := r
      cases ret with
      | none => rw [(addOperation_ok_none ha).1]; exact h
      | some n =>
        obtain ⟨hn, hst⟩ := addOperation_ok_some ha
        intro op hop
        rw [hst] at hop
        simp only [List.append_nil] at hop
        rcases mem_pushBounded hop with h1 | h1
        · exact h op (List.mem_append_left _ h1)
        · rw [h1]; exact normalizeOperation_normalized hn
  | undo =>
    simp only [step]
    rcases eq_nil_or_snoc st.operationHistory with hnil | ⟨hist, x, hh⟩
    · have : (undo st).1 = st := by unfold undo; simp [hnil]
      rw [this]; exact h
    · rw [undo_of_ne_nil st hist x hh]
      intro op hop
      apply h
      rw [hh]
      simp only [List.mem_append, List.mem_singleton] at hop ⊢
      tauto
  | redo =>
    simp only [step]
    rcases eq_nil_or_snoc st.redoStack with hnil | ⟨stack, x, hh⟩
    · rw [redo_of_nil st hnil]; exact h
    · rw [redo_of_ne_nil st stack x hh]
      intro op hop
      apply h
      rw [hh]
      simp only [List.mem_append, List.mem_singleton] at hop ⊢
      tauto
  | getHistory => exact h
  | clear => intro op hop; simp [step, clear] at hop

theorem foldl_step_normalized (B : Builtins) (calls : List Call) :
    ∀ st : DrawingState, (∀ op ∈ st.operationHistory ++ st.redoStack, op.Normalized) →
      ∀ op ∈ (calls.foldl (step B) st).operationHistory ++ (calls.foldl (step B) st).redoStack,
        op.Normalized := by
  induction calls with
  | nil => intro st h; exact h
  | cons c cs ih => intro st h; exact ih _ (step_normalized B st c h)

/-- C12: after any sequence of `addOperation`, `undo`, `redo`, `getHistory` and
`clear` calls with arbitrary arguments, every element of `operationHistory`
and of `redoStack` is a normalized stroke (tool `"brush"` or `"eraser"`,
finite width in `[1, 50]`, at least two points with finite coordinates), and
so is every element of the snapshot returned by `getHistory`, `undo` or
`redo`. -/
theorem run_normalized (B : Builtins) (calls : List Call) :
    (∀ op ∈ (run B calls).operationHistory, op.Normalized) ∧
      (∀ op ∈ (run B calls).redoStack, op.Normalized) ∧
      (∀ op ∈ (run B calls).getHistory, op.Normalized) ∧
      (∀ op ∈ (undo (run B calls)).2, op.Normalized) ∧
      ∀ op ∈ (redo (run B calls)).2, op.Normalized := by
  have h := foldl_step_normalized B calls new (by intro op hop; simp [new] at hop)
  have hu := step_normalized B (run B calls) .undo h
  have hr := step_normalized B (run B calls) .redo h
  simp only [step] at hu hr
  refine ⟨fun op hop => h op (List.mem_append_left _ hop),
    fun op hop => h op (List.mem_append_right _ hop), ?_, ?_, ?_⟩
  · intro op hop
    rw [getHistory_eq] at hop
    exact h op (List.mem_append_left _ hop)
  · intro op hop
    rw [undo_snd, getHistory_eq] at hop
    exact hu op (List.mem_append_left _ hop)
  · intro op hop
    rw [redo_snd, getHistory_eq] at hop
    exact hr op (List.mem_append_left _ hop)

end DrawingState

/-! ## Stroke ids -/

namespace DrawingState

theorem pushBounded_eq (history : List Operation) (op : Operation) :
    pushBounded history op = keptHistory history ++ [op] := by
  unfold pushBounded keptHistory
  simp only [List.length_append, List.length_singleton]
  split
  · rename_i hgt
    cases history with
    | nil => simp [MAX_HISTORY_LENGTH] at hgt
    | cons x xs => rfl
  · rfl

theorem keptHistory_sublist (history : List Operation) :
    (keptHistory history).Sublist history := by
  unfold keptHistory
  split
  · exact List.tail_sublist _
  · exact List.Sublist.refl _

theorem heldIds_step_fresh (B : Builtins) (st : DrawingState) (c : Call)
    (hnd : st.heldIds.Nodup) (hf : freshCall B st c = true) : (step B st c).heldIds.Nodup := by
  cases c with
  | addOperation now raw =>
    simp only [step]
    cases ha : addOperation B now st raw with
    | error e => exact hnd
    | ok r =>
      obtain ⟨st', ret⟩ := r
      cases ret with
      | none => rw [(addOperation_ok_none ha).1]; exact hnd
      | some n =>
        obtain ⟨hn, hst⟩ := addOperation_ok_some ha
        simp only [freshCall, hn, Bool.and_eq_true, Bool.not_eq_true', decide_eq_false_iff_not]
          at hf
        have hkept : ((keptHistory st.operationHistory).map fun o => o.strokeId).Nodup := by
          refine hnd.sublist ?_
          unfold heldIds
          rw [List.map_append]
          exact ((keptHistory_sublist _).map _).trans (List.sublist_append_left _ _)
        have hheld : st'.heldIds =
            ((keptHistory st.operationHistory).map fun o => o.strokeId) ++ [n.strokeId] := by
          rw [hst]
          simp [heldIds, pushBounded_eq]
        rw [hheld]
        refine List.Nodup.append hkept (List.nodup_singleton _) ?_
        intro id hid hid'
        rw [List.mem_singleton] at hid'
        subst hid'
        exact hf.2 hid
  | undo =>
    simp only [step]
    rcases eq_nil_or_snoc st.operationHistory with hnil | ⟨hist, x, hh⟩
    · have : (undo st).1 = st := by unfold undo; simp [hnil]
      rw [this]; exact hnd
    · rw [undo_of_ne_nil st hist x hh]
      have hperm : List.Perm (hist ++ (st.redoStack ++ [x]))
          (st.operationHistory ++ st.redoStack) := by
        rw [hh, List.append_assoc]
        exact List.Perm.append_left _ List.perm_append_comm
      exact ((hperm.map fun op : Operation => op.strokeId).nodup_iff).mpr hnd
  | redo =>
    simp only [step]
    rcases eq_nil_or_snoc st.redoStack with hnil | ⟨stack, x, hh⟩
    · rw [redo_of_nil st hnil]; exact hnd
    · rw [redo_of_ne_nil st stack x hh]
      have hperm : List.Perm ((st.operationHistory ++ [x]) ++ stack)
          (st.operationHistory ++ st.redoStack) := by
        rw [hh, List.append_assoc]
        exact List.Perm.append_left _ List.perm_append_comm
      exact ((hperm.map fun op : Operation => op.strokeId).nodup_iff).mpr hnd
  | getHistory => exact hnd
  | clear =>
    simp only [step, clear, heldIds, List.append_nil, List.map_nil]
    exact List.nodup_nil

theorem heldIds_foldl_fresh (B : Builtins) (calls : List Call) :
    ∀ st : DrawingState, st.heldIds.Nodup → freshRun B st calls = true →
      (calls.foldl (step B) st).heldIds.Nodup := by
  induction calls with
  | nil => intro st hnd _; exact hnd
  | cons c cs ih =>
    intro st hnd hf
    simp only [freshRun, Bool.and_eq_true] at hf
    exact ih (step B st c) (heldIds_step_fresh B st c hnd hf.1) hf.2

/-- C13 (as stated): two `addOperation` calls whose strokes carry the same
`strokeId` leave two operations with that id in `operationHistory`. -/
theorem run_duplicate_strokeId :
    ¬ (run Builtins.stub
        [.addOperation 1 (strokeWithId "s"), .addOperation 2 (strokeWithId "s")]).heldIds.Nodup := by
  decide

/-- C13 (amended): when every `addOperation` call that appends an operation
carries a string `strokeId` that no operation remaining in `operationHistory`
after the append has, no two operations held in `operationHistory` and
`redoStack` together have the same `strokeId`, whatever `undo`, `redo`,
`getHistory` and `clear` calls are interleaved. -/
theorem run_strokeId_nodup (B : Builtins) (calls : List Call)
    (h : freshRun B new calls = true) : (run B calls).heldIds.Nodup :=
  heldIds_foldl_fresh B calls new List.nodup_nil h

/-- C13 (amended) on a run that uses the id `"a"` again after a `clear` and
ends with `"a"` in the history and `"b"` in the redo buffer. -/
theorem run_strokeId_nodup_witness :
    freshRun Builtins.stub new
        [.addOperation 1 (strokeWithId "a"), .clear, .addOperation 2 (strokeWithId "a"),
          .addOperation 3 (strokeWithId "b"), .undo] = true ∧
      (run Builtins.stub
        [.addOperation 1 (strokeWithId "a"), .clear, .addOperation 2 (strokeWithId "a"),
          .addOperation 3 (strokeWithId "b"), .undo]).heldIds = [utf16 "a", utf16 "b"] ∧
      (run Builtins.stub
        [.addOperation 1 (strokeWithId "a"), .clear, .addOperation 2 (strokeWithId "a"),
          .addOperation 3 (strokeWithId "b"), .undo]).heldIds.Nodup :=
  ⟨by decide, by decide, run_strokeId_nodup Builtins.stub _ (by decide)⟩

end DrawingState

/-! ## Presence ids -/

theorem lookupField_setField (k : String) (v : JSVal) (o : JSObject) :
    lookupField k (setField k v o) = some v := by
  induction o with
  | nil => simp [setField, lookupField]
  | cons p rest ih =>
    obtain ⟨a, b⟩ := p
    by_cases h : a = k
    · simp [setField, lookupField, h]
    · simp [setField, lookupField, h, ih]

theorem lookupField_setField_ne (k k' : String) (v : JSVal) (o : JSObject) (h : k ≠ k') :
    lookupField k' (setField k v o) = lookupField k' o := by
  induction o with
  | nil => simp [setField, lookupField, h]
  | cons p rest ih =>
    obtain ⟨a, b⟩ := p
    by_cases ha : a = k
    · subst ha
      simp [setField, lookupField, h]
    · by_cases ha' : a = k'
      · subst ha'
        simp [setField, lookupField, ha]
      · simp [setField, lookupField, ha, ha', ih]

namespace RoomRegistry

theorem putUsers_presence (reg : RoomRegistry) (roomId : JSString) (room : Room)
    (users : List (JSString × JSObject)) (r u : JSString) :
    (putUsers reg roomId room users).presence r u =
      if roomId = r then mapGet u users else reg.presence r u := by
  unfold putUsers presence
  simp only [mapGet_mapSet]
  by_cases h : roomId = r <;> simp [h]

theorem addUser_presence (reg : RoomRegistry) (roomId userId : JSString) (userData : JSVal)
    (r u : JSString) :
    (addUser reg roomId userId userData).1.presence r u =
      if roomId = r ∧ userId = u then
        some (setField "id" (.str userId) (spreadInto [] userData))
      else reg.presence r u := by
  unfold addUser
  simp only [listUsers_presence, putUsers_presence, mapGet_mapSet]
  by_cases h : roomId = r
  · subst h
    by_cases h' : userId = u
    · simp [h']
    · simp [h', getOrCreateRoom_users]
  · simp [h, getOrCreateRoom_presence]

theorem removeUser_presence_ne (reg : RoomRegistry) (roomId userId : JSString)
    (r u : JSString) (h : ¬ (roomId = r ∧ userId = u)) :
    (removeUser reg roomId userId).1.presence r u = reg.presence r u := by
  unfold removeUser
  simp only [listUsers_presence, putUsers_presence]
  by_cases hr : roomId = r
  · subst hr
    have hu : userId ≠ u := fun e => h ⟨rfl, e⟩
    simp [mapGet_mapDelete_ne _ _ _ hu, getOrCreateRoom_users]
  · simp [hr, getOrCreateRoom_presence]

theorem updateUser_none (reg : RoomRegistry) (roomId userId : JSString) (updates : JSVal)
    (h : reg.presence roomId userId = none) :
    updateUser reg roomId userId updates = ((getOrCreateRoom reg roomId).1, none) := by
  unfold updateUser
  have := getOrCreateRoom_users reg roomId userId
  rw [h] at this
  simp only [this]

theorem updateUser_some (reg : RoomRegistry) (roomId userId : JSString) (updates : JSVal)
    (existing : JSObject) (h : reg.presence roomId userId = some existing) :
    updateUser reg roomId userId updates =
      (putUsers (getOrCreateRoom reg roomId).1 roomId (getOrCreateRoom reg roomId).2
          (mapSet userId
            (setField "id" (.str userId) (spreadInto (spreadInto [] (.obj existing)) updates))
            (getOrCreateRoom reg roomId).2.users),
        some (setField "id" (.str userId)
          (spreadInto (spreadInto [] (.obj existing)) updates))) := by
  unfold updateUser
  have := getOrCreateRoom_users reg roomId userId
  rw [h] at this
  simp only [this]

theorem updateUser_presence (reg : RoomRegistry) (roomId userId : JSString) (updates : JSVal)
    (r u : JSString) :
    (updateUser reg roomId userId updates).1.presence r u =
      if roomId = r ∧ userId = u then (updateUser reg roomId userId updates).2
      else reg.presence r u := by
  cases h : reg.presence roomId userId with
  | none =>
    rw [updateUser_none reg roomId userId updates h]
    simp only [getOrCreateRoom_presence]
    split
    · rename_i hru
      rw [← hru.1, ← hru.2, h]
    · rfl
  | some existing =>
    rw [updateUser_some reg roomId userId updates existing h]
    simp only [putUsers_presence, mapGet_mapSet]
    by_cases hr : roomId = r
    · subst hr
      by_cases hu : userId = u
      · simp [hu]
      · simp [hu, getOrCreateRoom_users]
    · simp [hr, getOrCreateRoom_presence]

theorem updateUser_snd_id (reg : RoomRegistry) (roomId userId : JSString) (updates : JSVal)
    (next : JSObject) (h : (updateUser reg roomId userId updates).2 = some next) :
    lookupField "id" next = some (.str userId) := by
  cases hp : reg.presence roomId userId with
  | none => rw [updateUser_none reg roomId userId updates hp] at h; simp at h
  | some existing =>
    rw [updateUser_some reg roomId userId updates existing hp] at h
    simp only [Option.some.injEq] at h
    rw [← h]
    exact lookupField_setField _ _ _

theorem mem_mapSet {α : Type} {k k' : JSString} {v v' : α} {l : List (JSString × α)}
    (h : (k', v') ∈ mapSet k v l) : (k' = k ∧ v' = v) ∨ (k', v') ∈ l := by
  induction l with
  | nil =>
    simp only [mapSet, List.mem_singleton, Prod.mk.injEq] at h
    exact Or.inl h
  | cons p rest ih =>
    obtain ⟨a, b⟩ := p
    by_cases ha : a = k
    · simp only [mapSet, ha, if_true, List.mem_cons, Prod.mk.injEq] at h
      rcases h with h | h
      · exact Or.inl h
      · exact Or.inr (List.mem_cons_of_mem _ h)
    · simp only [mapSet, ha, if_false, List.mem_cons] at h
      rcases h with h | h
      · exact Or.inr (h ▸ List.mem_cons_self _ _)
      · rcases ih h with h' | h'
        · exact Or.inl h'
        · exact Or.inr (List.mem_cons_of_mem _ h')

theorem mem_of_mem_mapDelete {α : Type} {k k' : JSString} {v' : α} {l : List (JSString × α)}
    (h : (k', v') ∈ mapDelete k l) : (k', v') ∈ l := by
  induction l with
  | nil => simp [mapDelete] at h
  | cons p rest ih =>
    obtain ⟨a, b⟩ := p
    by_cases ha : a = k
    · simp only [mapDelete, ha, if_true] at h
      exact List.mem_cons_of_mem _ h
    · simp only [mapDelete, ha, if_false, List.mem_cons] at h
      rcases h with h | h
      · exact h ▸ List.mem_cons_self _ _
      · exact List.mem_cons_of_mem _ (ih h)

theorem getOrCreateRoom_pinned (reg : RoomRegistry) (roomId : JSString) (h : reg.IdsPinned) :
    (getOrCreateRoom reg roomId).1.IdsPinned ∧
      ∀ u p, (u, p) ∈ (getOrCreateRoom reg roomId).2.users →
        lookupField "id" p = some (.str u) := by
  unfold getOrCreateRoom
  cases hg : mapGet roomId reg.rooms with
  | some room => exact ⟨h, h roomId room hg⟩
  | none =>
    refine ⟨?_, fun u p hp => by simp at hp⟩
    intro r room hr u p hp
    simp only [mapGet_mapSet] at hr
    split at hr
    · simp only [Option.some.injEq] at hr
      rw [← hr] at hp
      simp at hp
    · exact h r room hr u p hp

theorem putUsers_pinned (reg : RoomRegistry) (roomId : JSString) (room : Room)
    (users : List (JSString × JSObject)) (h : reg.IdsPinned)
    (hu : ∀ u p, (u, p) ∈ users → lookupField "id" p = some (.str u)) :
    (putUsers reg roomId room users).IdsPinned := by
  intro r room' hr u p hp
  simp only [putUsers, mapGet_mapSet] at hr
  split at hr
  · simp only [Option.some.injEq] at hr
    rw [← hr] at hp
    exact hu u p hp
  · exact h r room' hr u p hp

theorem step_pinned (reg : RoomRegistry) (c : Call) (h : reg.IdsPinned) :
    (step reg c).IdsPinned := by
  cases c with
  | addUser roomId userId userData =>
    obtain ⟨h1, h2⟩ := getOrCreateRoom_pinned reg roomId h
    refine (getOrCreateRoom_pinned _ roomId (putUsers_pinned _ roomId _ _ h1 ?_)).1
    intro u p hp
    rcases mem_mapSet hp with ⟨hk, hv⟩ | hmem
    · rw [hk, hv]; exact lookupField_setField _ _ _
    · exact h2 u p hmem
  | updateUser roomId userId updates =>
    obtain ⟨h1, h2⟩ := getOrCreateRoom_pinned reg roomId h
    simp only [step]
    cases hp : reg.presence roomId userId with
    | none => rw [updateUser_none reg roomId userId updates hp]; exact h1
    | some existing =>
      rw [updateUser_some reg roomId userId updates existing hp]
      refine putUsers_pinned _ roomId _ _ h1 ?_
      intro u p hmem
      rcases mem_mapSet hmem with ⟨hk, hv⟩ | hmem'
      · rw [hk, hv]; exact lookupField_setField _ _ _
      · exact h2 u p hmem'
  | removeUser roomId userId =>
    obtain ⟨h1, h2⟩ := getOrCreateRoom_pinned reg roomId h
    refine (getOrCreateRoom_pinned _ roomId (putUsers_pinned _ roomId _ _ h1 ?_)).1
    intro u p hp
    exact h2 u p (mem_of_mem_mapDelete hp)
  | listUsers roomId => exact (getOrCreateRoom_pinned reg roomId h).1
  | getUser roomId userId => exact (getOrCreateRoom_pinned reg roomId h).1

theorem foldl_step_pinned (calls : List Call) :
    ∀ reg : RoomRegistry, reg.IdsPinned → (calls.foldl step reg).IdsPinned := by
  induction calls with
  | nil => intro reg h; exact h
  | cons c cs ih => intro reg h; exact ih _ (step_pinned reg c h)

theorem new_pinned : new.IdsPinned :=
  (getOrCreateRoom_pinned { rooms := [] } (utf16 "global")
    (fun r room hr => by simp [mapGet] at hr)).1

/-- C14: after any sequence of `addUser`, `updateUser`, `removeUser`,
`listUsers` and `getUser` calls, every presence stored under a key `connId`
in any room has `id` equal to `connId`, whatever `id` field the `userData`
or `updates` arguments carried; and a presence returned by `updateUser` has
`id` equal to its `userId` argument. -/
theorem run_ids_pinned (calls : List Call) :
    (∀ roomId room, mapGet roomId (run calls).rooms = some room →
      ∀ connId presence, (connId, presence) ∈ room.users →
        lookupField "id" presence = some (.str connId)) ∧
      ∀ roomId userId updates next,
        ((run calls).updateUser roomId userId updates).2 = some next →
          lookupField "id" next = some (.str userId) :=
  ⟨foldl_step_pinned calls new new_pinned,
    fun roomId userId updates next h => updateUser_snd_id _ roomId userId updates next h⟩

end RoomRegistry

/-! ## Background colors -/

theorem jsTrim_sublist (s : JSString) : (jsTrim s).Sublist s :=
  (List.rdropWhile_prefix isWhiteSpace _).sublist.trans
    (List.dropWhile_suffix isWhiteSpace).sublist

theorem jsTrim_eq_nil_of_whiteSpace (s : JSString) (h : ∀ c ∈ s, isWhiteSpace c = true) :
    jsTrim s = [] := by
  unfold jsTrim
  rw [List.dropWhile_eq_nil_iff.mpr h]
  exact List.rdropWhile_nil _

theorem jsTrim_eq_self (s : JSString) (hhead : ∀ c rest, s = c :: rest → isWhiteSpace c = false)
    (hlast : ∀ init c, s = init ++ [c] → isWhiteSpace c = false) : jsTrim s = s := by
  unfold jsTrim
  have h1 : s.dropWhile isWhiteSpace = s := by
    cases s with
    | nil => rfl
    | cons c rest => simp [List.dropWhile, hhead c rest rfl]
  rw [h1]
  rcases eq_nil_or_snoc s with hnil | ⟨init, c, hs⟩
  · rw [hnil]; exact List.rdropWhile_nil _
  · rw [hs]
    exact List.rdropWhile_concat_neg _ _ _ (by simp [hlast init c hs])

theorem normalizeBackgroundColor_str (s : JSString) :
    normalizeBackgroundColor (.str s) =
      if (jsTrim s).isEmpty then DEFAULT_CANVAS_BACKGROUND
      else if (jsTrim ((jsTrim s).filter isBackgroundChar)).isEmpty then DEFAULT_CANVAS_BACKGROUND
      else (jsTrim ((jsTrim s).filter isBackgroundChar)).take 64 := rfl

theorem normalizeBackgroundColor_cases (v : JSVal) :
    normalizeBackgroundColor v = DEFAULT_CANVAS_BACKGROUND ∨
      ∃ s, v = .str s ∧ jsTrim ((jsTrim s).filter isBackgroundChar) ≠ [] ∧
        normalizeBackgroundColor v = (jsTrim ((jsTrim s).filter isBackgroundChar)).take 64 := by
  cases v with
  | str s =>
    rw [normalizeBackgroundColor_str]
    by_cases h1 : (jsTrim s).isEmpty = true
    · simp [h1]
    · by_cases h2 : (jsTrim ((jsTrim s).filter isBackgroundChar)).isEmpty = true
      · simp [h1, h2]
      · right
        refine ⟨s, rfl, ?_, by simp [h1, h2]⟩
        intro hnil
        rw [hnil] at h2
        exact h2 rfl
  | _ => exact Or.inl rfl

/-- C15: for every input, `normalizeBackgroundColor` returns a non-empty string
of at most 64 code units, each one of `# ( ) , . % / -`, an ASCII letter, an
ASCII digit or white space; and it returns `"#ffffff"` when the input is not
a string, is empty or all white space, or has no allowed character. -/
theorem normalizeBackgroundColor_range (v : JSVal) :
    normalizeBackgroundColor v ≠ [] ∧
      (normalizeBackgroundColor v).length ≤ 64 ∧
      (∀ c ∈ normalizeBackgroundColor v,
        c ∈ [35, 40, 41, 44, 46, 37, 47, 45] ∨ isAsciiLetter c = true ∨
          isAsciiDigit c = true ∨ isWhiteSpace c = true) ∧
      ((∀ s, v ≠ .str s) → normalizeBackgroundColor v = utf16 "#ffffff") ∧
      (∀ s, v = .str s → (∀ c ∈ s, isWhiteSpace c = true) →
        normalizeBackgroundColor v = utf16 "#ffffff") ∧
      ∀ s, v = .str s → s.filter isBackgroundChar = [] →
        normalizeBackgroundColor v = utf16 "#ffffff" := by
  have hallowed : ∀ c, isBackgroundChar c = true →
      c ∈ [35, 40, 41, 44, 46, 37, 47, 45] ∨ isAsciiLetter c = true ∨
        isAsciiDigit c = true ∨ isWhiteSpace c = true := by
    intro c hc
    simp only [isBackgroundChar, Bool.or_eq_true, beq_iff_eq] at hc
    simp only [List.mem_cons, List.mem_singleton, List.not_mem_nil, or_false]
    tauto
  refine ⟨?_, ?_, ?_, ?_, ?_, ?_⟩
  · rcases normalizeBackgroundColor_cases v with h | ⟨s, -, hne, h⟩
    · rw [h]; decide
    · rw [h]
      intro hnil
      rcases List.take_eq_nil_iff.mp hnil with h0 | h0
      · exact absurd h0 (by decide)
      · exact hne h0
  · rcases normalizeBackgroundColor_cases v with h | ⟨s, -, -, h⟩
    · rw [h]; decide
    · rw [h, List.length_take]; exact Nat.min_le_left _ _
  · intro c hc
    rcases normalizeBackgroundColor_cases v with h | ⟨s, -, -, h⟩
    · rw [h] at hc
      revert c
      decide
    · rw [h] at hc
      have h1 := (jsTrim_sublist _).subset (List.mem_of_mem_take hc)
      exact hallowed c (List.mem_filter.mp h1).2
  · intro hv
    cases v with
    | str s => exact absurd rfl (hv s)
    | _ => rfl
  · rintro s rfl hws
    rw [normalizeBackgroundColor_str, jsTrim_eq_nil_of_whiteSpace s hws]
    rfl
  · rintro s rfl hnone
    have h1 : (jsTrim s).filter isBackgroundChar = [] :=
      List.eq_nil_of_sublist_nil (hnone ▸ (jsTrim_sublist s).filter _)
    rw [normalizeBackgroundColor_str, h1]
    have h2 : jsTrim ([] : JSString) = [] := rfl
    rw [h2]
    by_cases h : (jsTrim s).isEmpty = true <;> simp [h] <;> rfl

/-- C16: a non-empty string of at most 64 code units, all of them allowed,
that neither starts nor ends with white space is returned unchanged by
`normalizeBackgroundColor`. -/
theorem normalizeBackgroundColor_fixed (s : JSString) (hne : s ≠ []) (hlen : s.length ≤ 64)
    (hall : ∀ c ∈ s,
      c ∈ [35, 40, 41, 44, 46, 37, 47, 45] ∨ isAsciiLetter c = true ∨
        isAsciiDigit c = true ∨ isWhiteSpace c = true)
    (hhead : ∀ c rest, s = c :: rest → isWhiteSpace c = false)
    (hlast : ∀ init c, s = init ++ [c] → isWhiteSpace c = false) :
    normalizeBackgroundColor (.str s) = s := by
  have htrim := jsTrim_eq_self s hhead hlast
  have hfilter : s.filter isBackgroundChar = s := by
    rw [List.filter_eq_self]
    intro c hc
    have := hall c hc
    simp only [List.mem_cons, List.mem_singleton, List.not_mem_nil, or_false] at this
    simp only [isBackgroundChar, Bool.or_eq_true, beq_iff_eq]
    tauto
  have hempty : s.isEmpty = false := by
    cases s with
    | nil => exact absurd rfl hne
    | cons c rest => rfl
  rw [normalizeBackgroundColor_str, htrim, hfilter, htrim, hempty]
  simp only [Bool.false_eq_true, if_false]
  exact List.take_of_length_le hlen

/-- C16 at `"rgba(0,0,0,0.5)"`. -/
theorem normalizeBackgroundColor_fixed_witness :
    normalizeBackgroundColor (.str (utf16 "rgba(0,0,0,0.5)")) = utf16 "rgba(0,0,0,0.5)" :=
  normalizeBackgroundColor_fixed (utf16 "rgba(0,0,0,0.5)") (by decide) (by decide) (by decide)
    (by
      intro c rest h
      have hc : c = 114 := by
        have hd : (utf16 "rgba(0,0,0,0.5)").head? = some 114 := by decide
        rw [h] at hd
        simpa using hd
      rw [hc]; decide)
    (by
      intro init c h
      have hc : c = 41 := by
        have hd : (utf16 "rgba(0,0,0,0.5)").getLast? = some 41 := by decide
        rw [h] at hd
        simpa using hd
      rw [hc]; decide)

/-! ## Segments -/

theorem numberIsFinite_iff (v : JSVal) : numberIsFinite v = true ↔ ∃ q : ℚ, v = .num (.fin q) := by
  constructor
  · intro h
    cases v with
    | num n =>
      cases n with
      | fin q => exact ⟨q, rfl⟩
      | _ => simp [numberIsFinite] at h
    | _ => simp [numberIsFinite] at h
  · rintro ⟨q, rfl⟩; rfl

theorem isValidSegment_iff (v : JSVal) :
    isValidSegment v = true ↔
      truthy v = true ∧ truthy (getPropOpt v "from") = true ∧
        truthy (getPropOpt v "to") = true ∧
        numberIsFinite (getPropOpt (getPropOpt v "from") "x") = true ∧
        numberIsFinite (getPropOpt (getPropOpt v "from") "y") = true ∧
        numberIsFinite (getPropOpt (getPropOpt v "to") "x") = true ∧
        numberIsFinite (getPropOpt (getPropOpt v "to") "y") = true := by
  unfold isValidSegment
  by_cases ht : truthy v = true
  · simp only [ht, Bool.not_true, Bool.false_eq_true, if_false, Bool.and_eq_true, true_and]
    tauto
  · simp [ht]

theorem clampWidth_eq (B : Builtins) (width : JSVal) (n : JSNum)
    (h : toNumber B width = .ok n) : clampWidth B width = .ok (DrawingState.clampNum n) := by
  unfold clampWidth
  simp only [h, bind, Except.bind]
  cases n <;> rfl

theorem sanitizeSegment_eq (B : Builtins) (now : Nat) (v : JSVal) (n : JSNum)
    (fx fy tx ty : ℚ) (ht : truthy v = true) (hf : truthy (getPropOpt v "from") = true)
    (hto : truthy (getPropOpt v "to") = true)
    (hfx : getPropOpt (getPropOpt v "from") "x" = .num (.fin fx))
    (hfy : getPropOpt (getPropOpt v "from") "y" = .num (.fin fy))
    (htx : getPropOpt (getPropOpt v "to") "x" = .num (.fin tx))
    (hty : getPropOpt (getPropOpt v "to") "y" = .num (.fin ty))
    (hn : toNumber B (getPropOpt v "width") = .ok n) :
    sanitizeSegment B now v =
      .ok { strokeId :=
              match getPropOpt v "strokeId" with
              | .str s => s
              | _ => utf16 "stroke-" ++ utf16 (toString now)
            tool :=
              match getPropOpt v "tool" with
              | .str s => if s = utf16 "eraser" then utf16 "eraser" else utf16 "brush"
              | _ => utf16 "brush"
            color :=
              match getPropOpt v "color" with
              | .str s => s
              | _ => utf16 "#000000"
            width := DrawingState.clampNum n
            segFrom := { x := .fin fx, y := .fin fy }
            segTo := { x := .fin tx, y := .fin ty } } := by
  unfold sanitizeSegment
  simp only [getProp_of_truthy ht, getProp_of_truthy hf, getProp_of_truthy hto, hfx, hfy, htx,
    hty, clampWidth_eq B _ n hn, toNumber, bind, Except.bind, pure, Except.pure]

/-- C17: for a raw segment `v` that passes `isValidSegment` and a raw stroke `w`
accepted by `addOperation`, with the same `tool`, `color` and `width` fields
and the same string `strokeId`, `sanitizeSegment(v)` returns a segment whose
`strokeId`, `tool`, `color` and `width` equal those of the accepted
operation; its width lies in `[1, 50]`, its tool is `"brush"` or `"eraser"`,
and its `from` and `to` coordinates are those of `v`. -/
theorem sanitizeSegment_agrees (B : Builtins) (now now' : Nat) (st st' : DrawingState)
    (v w : JSVal) (op : Operation) (id : JSString) (hv : isValidSegment v = true)
    (hw : DrawingState.addOperation B now' st w = .ok (st', some op))
    (htool : getPropOpt v "tool" = getPropOpt w "tool")
    (hcolor : getPropOpt v "color" = getPropOpt w "color")
    (hwidth : getPropOpt v "width" = getPropOpt w "width")
    (hidv : getPropOpt v "strokeId" = .str id) (hidw : getPropOpt w "strokeId" = .str id) :
    ∃ seg, sanitizeSegment B now v = .ok seg ∧
      seg.strokeId = op.strokeId ∧ seg.tool = op.tool ∧ seg.color = op.color ∧
      seg.width = op.width ∧
      (∃ q : ℚ, seg.width = .fin q ∧ 1 ≤ q ∧ q ≤ 50) ∧
      (seg.tool = utf16 "brush" ∨ seg.tool = utf16 "eraser") ∧
      getPropOpt (getPropOpt v "from") "x" = .num seg.segFrom.x ∧
      getPropOpt (getPropOpt v "from") "y" = .num seg.segFrom.y ∧
      getPropOpt (getPropOpt v "to") "x" = .num seg.segTo.x ∧
      getPropOpt (getPropOpt v "to") "y" = .num seg.segTo.y := by
  obtain ⟨ht, hf, hto, hfx, hfy, htx, hty⟩ := (isValidSegment_iff v).mp hv
  obtain ⟨fx, hfx⟩ := (numberIsFinite_iff _).mp hfx
  obtain ⟨fy, hfy⟩ := (numberIsFinite_iff _).mp hfy
  obtain ⟨tx, htx⟩ := (numberIsFinite_iff _).mp htx
  obtain ⟨ty, hty⟩ := (numberIsFinite_iff _).mp hty
  obtain ⟨xs, pts, n, -, -, -, hn, rfl⟩ :=
    DrawingState.normalizeOperation_some (DrawingState.addOperation_ok_some hw).1
  rw [← hwidth] at hn
  refine ⟨_, sanitizeSegment_eq B now v n fx fy tx ty ht hf hto hfx hfy htx hty hn, ?_, ?_, ?_,
    rfl, ?_, ?_, hfx, hfy, htx, hty⟩
  · simp only [DrawingState.built, hidv, hidw]
  · simp only [DrawingState.built, htool]
  · simp only [DrawingState.built, hcolor]
  · cases n with
    | fin q => exact ⟨DrawingState.clampFinite q, rfl, DrawingState.clampFinite_bounds q⟩
    | _ => exact ⟨1, rfl, le_refl _, by norm_num⟩
  · show (match getPropOpt v "tool" with
      | .str s => if s = utf16 "eraser" then utf16 "eraser" else utf16 "brush"
      | _ => utf16 "brush") = utf16 "brush" ∨ _ = utf16 "eraser"
    split
    · split
      · exact Or.inr rfl
      · exact Or.inl rfl
    · exact Or.inl rfl

/-- C17 at `sampleSegment` and `sampleSegmentStroke`. -/
theorem sanitizeSegment_agrees_witness :
    ∃ seg, sanitizeSegment Builtins.stub 9 sampleSegment = .ok seg ∧
      seg.strokeId = utf16 "s" ∧ seg.tool = utf16 "eraser" ∧ seg.width = .fin 50 := by
  obtain ⟨seg, h1, h2, h3, -, h5, -⟩ :=
    sanitizeSegment_agrees Builtins.stub 9 7 DrawingState.new
      { operationHistory := [sampleSegmentOperation], redoStack := [] } sampleSegment
      sampleSegmentStroke sampleSegmentOperation (utf16 "s") rfl rfl rfl rfl rfl rfl rfl
  exact ⟨seg, h1, h2, h3, h5⟩

/-! ## User colors -/

/-- C18: for every connection identity, of any length, the index
`Math.abs(hashCode(seed)) % 8` is below 8, so `assignUserColor` returns one
of the 8 palette entries and never `undefined`; and equal identities get
equal colors. -/
theorem assignUserColor_mem_palette (B : Builtins) (seed : JSString) :
    palette.length = 8 ∧
      (hashCode B seed).natAbs % palette.length < 8 ∧
      (∃ color ∈ palette, assignUserColor B seed = .str color) ∧
      assignUserColor B seed ≠ .undefined ∧
      ∀ seed' : JSString, seed' = seed → assignUserColor B seed' = assignUserColor B seed := by
  have hlen : palette.length = 8 := rfl
  have hlt : (hashCode B seed).natAbs % palette.length < palette.length :=
    Nat.mod_lt _ (by rw [hlen]; norm_num)
  have hcol : ∃ color ∈ palette, assignUserColor B seed = .str color := by
    refine ⟨palette[(hashCode B seed).natAbs % palette.length], List.getElem_mem _, ?_⟩
    unfold assignUserColor
    simp only [List.getElem?_eq_getElem hlt]
  refine ⟨hlen, hlen ▸ hlt, hcol, ?_, fun seed' h => by rw [h]⟩
  obtain ⟨color, -, hc⟩ := hcol
  rw [hc]
  exact fun h => JSVal.noConfusion h

/-! ## The length of an accepted display name -/

/-- C19 (as stated): `normalizeDisplayName("a!")` returns
`{ ok: true, value: "a" }`, whose value has fewer than 2 code units. -/
theorem normalizeDisplayName_short :
    normalizeDisplayName (.str (utf16 "a!")) = .ok (utf16 "a") ∧
      ¬ 2 ≤ (utf16 "a").length := by
  decide

/-- C19 (amended): when `normalizeDisplayName` returns `{ ok: true, value }`,
the input is a string whose trimmed form has at least 2 code units, and
`value` has at least 1 and at most 32 code units. -/
theorem normalizeDisplayName_value_length (v : JSVal) (value : JSString)
    (h : normalizeDisplayName v = .ok value) :
    (∃ s, v = .str s ∧ 2 ≤ (jsTrim s).length) ∧ 1 ≤ value.length ∧ value.length ≤ 32 := by
  cases v with
  | str s =>
    rw [normalizeDisplayName_str] at h
    split at h
    · simp at h
    · rename_i h1
      split at h
      · simp at h
      · rename_i h2
        split at h
        · simp at h
        · rename_i h3
          simp only [NameResult.ok.injEq] at h
          subst h
          refine ⟨⟨s, rfl, by omega⟩, ?_, by omega⟩
          cases hc : cleanedName s with
          | nil => rw [hc] at h2; exact absurd rfl h2
          | cons c rest => simp
  | _ => simp [normalizeDisplayName] at h

/-- C19 (amended) at `"a!"`, accepted as `"a"`. -/
theorem normalizeDisplayName_value_length_witness :
    normalizeDisplayName (.str (utf16 "a!")) = .ok (utf16 "a") ∧
      1 ≤ (utf16 "a").length ∧ (utf16 "a").length ≤ 32 :=
  ⟨by decide,
    (normalizeDisplayName_value_length (.str (utf16 "a!")) (utf16 "a") (by decide)).2⟩

/-! ## Cursor entries and presences -/

theorem mapDelete_sublist {α : Type} (k : JSString) (l : List (JSString × α)) :
    (mapDelete k l).Sublist l := by
  induction l with
  | nil => exact List.Sublist.refl _
  | cons p rest ih =>
    obtain ⟨a, b⟩ := p
    by_cases ha : a = k
    · simp only [mapDelete, ha, if_true]
      exact List.sublist_cons_self _ _
    · simp only [mapDelete, ha, if_false]
      exact ih.cons₂ _

theorem mapDelete_keys_nodup {α : Type} (k : JSString) (l : List (JSString × α))
    (h : (l.map Prod.fst).Nodup) : ((mapDelete k l).map Prod.fst).Nodup :=
  h.sublist ((mapDelete_sublist k l).map _)

theorem mem_mapDelete_ne {α : Type} {k k' : JSString} {v' : α} {l : List (JSString × α)}
    (hnd : (l.map Prod.fst).Nodup) (h : (k', v') ∈ mapDelete k l) : k' ≠ k := by
  induction l with
  | nil => simp [mapDelete] at h
  | cons p rest ih =>
    obtain ⟨a, b⟩ := p
    simp only [List.map_cons, List.nodup_cons] at hnd
    by_cases ha : a = k
    · simp only [mapDelete, ha, if_true] at h
      intro hk
      apply hnd.1
      rw [ha, ← hk]
      exact List.mem_map_of_mem Prod.fst h
    · simp only [mapDelete, ha, if_false, List.mem_cons, Prod.mk.injEq] at h
      rcases h with h | h
      · rw [h.1]; exact ha
      · exact ih hnd.2 h

theorem mem_keys_mapSet {α : Type} {k x : JSString} {v : α} {l : List (JSString × α)}
    (h : x ∈ (mapSet k v l).map Prod.fst) : x = k ∨ x ∈ l.map Prod.fst := by
  obtain ⟨p, hp, rfl⟩ := List.mem_map.mp h
  obtain ⟨a, b⟩ := p
  rcases RoomRegistry.mem_mapSet hp with ⟨hk, -⟩ | hmem
  · exact Or.inl hk
  · exact Or.inr (List.mem_map_of_mem Prod.fst hmem)

theorem mapSet_keys_nodup {α : Type} (k : JSString) (v : α) (l : List (JSString × α))
    (h : (l.map Prod.fst).Nodup) : ((mapSet k v l).map Prod.fst).Nodup := by
  induction l with
  | nil => simp [mapSet]
  | cons p rest ih =>
    obtain ⟨a, b⟩ := p
    simp only [List.map_cons, List.nodup_cons] at h
    by_cases ha : a = k
    · simp only [mapSet, ha, if_true, List.map_cons, List.nodup_cons]
      rw [ha] at h
      exact h
    · simp only [mapSet, ha, if_false, List.map_cons, List.nodup_cons]
      refine ⟨?_, ih h.2⟩
      intro hmem
      rcases mem_keys_mapSet hmem with h1 | h1
      · exact ha h1
      · exact h.1 h1

theorem mem_mapSet_nodup {α : Type} {k k' : JSString} {v v' : α} {l : List (JSString × α)}
    (hnd : (l.map Prod.fst).Nodup) (h : (k', v') ∈ mapSet k v l) :
    (k' = k ∧ v' = v) ∨ (k' ≠ k ∧ (k', v') ∈ l) := by
  induction l with
  | nil =>
    simp only [mapSet, List.mem_singleton, Prod.mk.injEq] at h
    exact Or.inl h
  | cons p rest ih =>
    obtain ⟨a, b⟩ := p
    simp only [List.map_cons, List.nodup_cons] at hnd
    by_cases ha : a = k
    · simp only [mapSet, ha, if_true, List.mem_cons, Prod.mk.injEq] at h
      rcases h with h | h
      · exact Or.inl h
      · right
        refine ⟨?_, List.mem_cons_of_mem _ h⟩
        intro hk
        apply hnd.1
        rw [ha, ← hk]
        exact List.mem_map_of_mem Prod.fst h
    · simp only [mapSet, ha, if_false, List.mem_cons, Prod.mk.injEq] at h
      rcases h with h | h
      · right
        refine ⟨by rw [h.1]; exact ha, ?_⟩
        rw [h.1, h.2]
        exact List.mem_cons_self _ _
      · rcases ih hnd.2 h with h' | h'
        · exact Or.inl h'
        · exact Or.inr ⟨h'.1, List.mem_cons_of_mem _ h'.2⟩

theorem mapGet_of_mem {α : Type} {k : JSString} {v : α} {l : List (JSString × α)}
    (h : (k, v) ∈ l) : ∃ v', mapGet k l = some v' := by
  induction l with
  | nil => simp at h
  | cons p rest ih =>
    obtain ⟨a, b⟩ := p
    by_cases ha : a = k
    · exact ⟨b, by simp [mapGet, ha]⟩
    · simp only [List.mem_cons, Prod.mk.injEq] at h
      rcases h with h | h
      · exact absurd h.1.symm ha
      · obtain ⟨v', hv'⟩ := ih h
        exact ⟨v', by simp [mapGet, ha, hv']⟩

theorem mapGet_of_mem_nodup {α : Type} {k : JSString} {v : α} {l : List (JSString × α)}
    (hnd : (l.map Prod.fst).Nodup) (h : (k, v) ∈ l) : mapGet k l = some v := by
  induction l with
  | nil => simp at h
  | cons p rest ih =>
    obtain ⟨a, b⟩ := p
    simp only [List.map_cons, List.nodup_cons] at hnd
    simp only [List.mem_cons, Prod.mk.injEq] at h
    rcases h with h | h
    · simp [mapGet, h.1, h.2]
    · have hak : a ≠ k := by
        intro hak
        apply hnd.1
        rw [hak]
        exact List.mem_map_of_mem Prod.fst h
      simp [mapGet, hak, ih hnd.2 h]

theorem truthy_buildDefaultLabel (B : Builtins) (v : JSVal) :
    truthy (.str (buildDefaultLabel B v)) = true := by
  unfold buildDefaultLabel
  cases v with
  | str s =>
    simp only
    split
    · rfl
    · rfl
  | _ => rfl

theorem labelOf_initial (id : JSString) (color : JSVal) (label : JSString) :
    labelOf (setField "id" (.str id) (spreadInto [] (.obj [("color", color), ("label", .str label)])))
      = .str label := by
  unfold labelOf
  rw [lookupField_setField_ne "id" "label" _ _ (by decide)]
  rfl

theorem labelOf_updated (id : JSString) (existing : JSObject) (label : JSVal) :
    labelOf (setField "id" (.str id)
      (spreadInto (spreadInto [] (.obj existing)) (.obj [("label", label)]))) = label := by
  unfold labelOf
  rw [lookupField_setField_ne "id" "label" _ _ (by decide)]
  have : spreadInto (spreadInto [] (.obj existing)) (.obj [("label", label)]) =
      setField "label" label (spreadInto [] (.obj existing)) := rfl
  rw [this, lookupField_setField]
  rfl

theorem normalizeDisplayName_ok_truthy {rawName : JSVal} {value : JSString}
    (h : normalizeDisplayName rawName = .ok value) : truthy (.str value) = true := by
  cases rawName with
  | str s =>
    rw [normalizeDisplayName_str] at h
    split at h
    · simp at h
    · split at h
      · simp at h
      · rename_i hne
        split at h
        · simp at h
        · simp only [NameResult.ok.injEq] at h
          rw [← h]
          simpa [truthy] using hne
  | _ => simp [normalizeDisplayName] at h

theorem broadcastUserList_cursorPositions (st : ServerState) (roomId : JSString) :
    (broadcastUserList st roomId).1.cursorPositions = st.cursorPositions := rfl

theorem broadcastUserList_presence (st : ServerState) (roomId r u : JSString) :
    (broadcastUserList st roomId).1.rooms.presence r u = st.rooms.presence r u :=
  RoomRegistry.listUsers_presence st.rooms roomId r u

theorem broadcastCursors_cursorPositions (B : Builtins) (st : ServerState) (roomId : JSString) :
    (broadcastCursors B st roomId).1.cursorPositions = st.cursorPositions := rfl

theorem broadcastCursors_presence (B : Builtins) (st : ServerState) (roomId r u : JSString) :
    (broadcastCursors B st roomId).1.rooms.presence r u = st.rooms.presence r u := by
  rw [broadcastCursors_eq]
  show (viewCursors B roomId _ _).1.presence r u = _
  rw [(viewCursors_spec B roomId _ _).2, (filterCursors_spec roomId _ _).2]

theorem CursorInv.congr {st st' : ServerState} {act : List Conn} {used : List JSString}
    (h : CursorInv st act used) (hc : st'.cursorPositions = st.cursorPositions)
    (hp : ∀ r u, st'.rooms.presence r u = st.rooms.presence r u) : CursorInv st' act used where
  ids_nodup := h.ids_nodup
  ids_used := h.ids_used
  keys_nodup := by rw [hc]; exact h.keys_nodup
  present := fun c hcm => by rw [hp]; exact h.present c hcm
  cursors := fun id cursor hm => by
    rw [hc] at hm
    obtain ⟨c, hcm, hid, p, hpres, hl⟩ := h.cursors id cursor hm
    exact ⟨c, hcm, hid, p, by rw [hp]; exact hpres, hl⟩

theorem CursorInv.conn_unique {st : ServerState} {act : List Conn} {used : List JSString}
    (h : CursorInv st act used) {c c' : Conn} (hc : c ∈ act) (hc' : c' ∈ act)
    (hid : c.id = c'.id) : c = c' :=
  List.inj_on_of_nodup_map h.ids_nodup hc hc' hid

theorem onConnection_presence (B : Builtins) (st : ServerState) (socketId : JSString)
    (requestedRoom : JSVal) (r u : JSString) :
    (onConnection B st socketId requestedRoom).2.1.rooms.presence r u =
      if (onConnection B st socketId requestedRoom).1.roomId = r ∧ socketId = u then
        some (setField "id" (.str socketId)
          (spreadInto [] (.obj [("color", assignUserColor B socketId),
            ("label", .str (buildDefaultLabel B (.str socketId)))])))
      else st.rooms.presence r u := by
  show (RoomRegistry.listUsers (st.rooms.addUser
      (onConnection B st socketId requestedRoom).1.roomId socketId
      (.obj [("color", assignUserColor B socketId),
        ("label", .str (buildDefaultLabel B (.str socketId)))])).1
      (onConnection B st socketId requestedRoom).1.roomId).1.presence r u = _
  rw [RoomRegistry.listUsers_presence, RoomRegistry.addUser_presence]

theorem CursorInv.connection {B : Builtins} {st : ServerState} {act : List Conn}
    {used : List JSString} (h : CursorInv st act used) (socketId : JSString)
    (requestedRoom : JSVal) (hfresh : socketId ∉ used) :
    CursorInv (onConnection B st socketId requestedRoom).2.1
      ((onConnection B st socketId requestedRoom).1 :: act) (socketId :: used) := by
  have hne : ∀ c ∈ act, c.id ≠ socketId := fun c hc e => hfresh (e ▸ h.ids_used c hc)
  have hold : ∀ c ∈ act, ∀ u, u = c.id →
      (onConnection B st socketId requestedRoom).2.1.rooms.presence c.roomId u =
        st.rooms.presence c.roomId u := by
    intro c hc u hu
    rw [onConnection_presence, if_neg]
    rintro ⟨-, e⟩
    exact hne c hc (hu ▸ e.symm)
  refine ⟨?_, ?_, h.keys_nodup, ?_, ?_⟩
  · simp only [List.map_cons, List.nodup_cons]
    refine ⟨?_, h.ids_nodup⟩
    intro hmem
    obtain ⟨c, hc, hcid⟩ := List.mem_map.mp hmem
    exact hne c hc hcid
  · intro c hc
    rcases List.mem_cons.mp hc with rfl | hc'
    · exact List.mem_cons_self _ _
    · exact List.mem_cons_of_mem _ (h.ids_used c hc')
  · intro c hc
    rcases List.mem_cons.mp hc with rfl | hc'
    · have hp0 := onConnection_presence B st socketId requestedRoom
        (onConnection B st socketId requestedRoom).1.roomId socketId
      rw [if_pos ⟨rfl, rfl⟩] at hp0
      exact ⟨_, hp0, by rw [labelOf_initial]; exact truthy_buildDefaultLabel B _⟩
    · rw [hold c hc' c.id rfl]
      exact h.present c hc'
  · intro id cursor hm
    obtain ⟨c, hc, hid, p, hpres, hl⟩ := h.cursors id cursor hm
    refine ⟨c, List.mem_cons_of_mem _ hc, hid, p, ?_, hl⟩
    rw [hold c hc id hid.symm]
    exact hpres

theorem CursorInv.cursorMove {B : Builtins} {st : ServerState} {act : List Conn}
    {used : List JSString} (h : CursorInv st act used) (conn : Conn) (position : JSVal)
    (hconn : conn ∈ act) : CursorInv (onCursorMove B conn st position).1 act used := by
  obtain ⟨p, hp, hlabel⟩ := h.present conn hconn
  by_cases hvalid : (truthy position && numberIsFinite (getPropOpt position "x") &&
      numberIsFinite (getPropOpt position "y")) = true
  · have hst : (onCursorMove B conn st position).1 =
        (broadcastCursors B
          { st with
            rooms := (st.rooms.getUser conn.roomId conn.id).1
            cursorPositions :=
              mapSet conn.id
                { position := position
                  color := assignUserColor B conn.id
                  label := labelOf p }
                st.cursorPositions } conn.roomId).1 := by
      unfold onCursorMove
      simp only [hvalid, if_true, RoomRegistry.getUser_snd, hp]
      have : (lookupField "label" p).getD .undefined = labelOf p := rfl
      simp only [this, hlabel, if_true]
    rw [hst]
    refine CursorInv.congr ?_ (broadcastCursors_cursorPositions B _ _)
      (broadcastCursors_presence B _ _)
    refine ⟨h.ids_nodup, h.ids_used, mapSet_keys_nodup _ _ _ h.keys_nodup, ?_, ?_⟩
    · intro c hc
      show ∃ p, (st.rooms.getUser conn.roomId conn.id).1.presence c.roomId c.id = some p ∧ _
      rw [RoomRegistry.getUser_presence]
      exact h.present c hc
    · intro id cursor hm
      show ∃ c ∈ act, c.id = id ∧ ∃ p,
        (st.rooms.getUser conn.roomId conn.id).1.presence c.roomId id = some p ∧ _
      rcases mem_mapSet_nodup h.keys_nodup hm with ⟨hk, hv⟩ | ⟨-, hold⟩
      · refine ⟨conn, hconn, hk.symm, p, ?_, by rw [hv]⟩
        rw [RoomRegistry.getUser_presence, hk]
        exact hp
      · obtain ⟨c, hc, hid, q, hq, hl⟩ := h.cursors id cursor hold
        exact ⟨c, hc, hid, q, by rw [RoomRegistry.getUser_presence]; exact hq, hl⟩
  · have hst : (onCursorMove B conn st position).1 =
        (broadcastCursors B
          { st with cursorPositions := mapDelete conn.id st.cursorPositions } conn.roomId).1 := by
      unfold onCursorMove
      simp only [hvalid, Bool.false_eq_true, if_false]
    rw [hst]
    refine CursorInv.congr ?_ (broadcastCursors_cursorPositions B _ _)
      (broadcastCursors_presence B _ _)
    refine ⟨h.ids_nodup, h.ids_used, mapDelete_keys_nodup _ _ h.keys_nodup, h.present, ?_⟩
    intro id cursor hm
    exact h.cursors id cursor (RoomRegistry.mem_of_mem_mapDelete hm)

theorem CursorInv.disconnect {B : Builtins} {st : ServerState} {act : List Conn}
    {used : List JSString} (h : CursorInv st act used) (conn : Conn) (hconn : conn ∈ act) :
    CursorInv (onDisconnect B conn st).1 (act.erase conn) used := by
  have hact : act.Nodup := List.Nodup.of_map _ h.ids_nodup
  have hne : ∀ c ∈ act.erase conn, c ∈ act ∧ c.id ≠ conn.id := by
    intro c hc
    have hmem := List.mem_of_mem_erase hc
    refine ⟨hmem, fun e => ?_⟩
    have := h.conn_unique hmem hconn e
    rw [this] at hc
    exact (List.Nodup.not_mem_erase hact) hc
  have hst : (onDisconnect B conn st).1 =
      (broadcastCursors B (broadcastUserList
        { st with
          rooms := (st.rooms.removeUser conn.roomId conn.id).1
          cursorPositions := mapDelete conn.id st.cursorPositions } conn.roomId).1
        conn.roomId).1 := rfl
  rw [hst]
  refine CursorInv.congr (CursorInv.congr ?_ (broadcastUserList_cursorPositions _ _)
    (broadcastUserList_presence _ _)) (broadcastCursors_cursorPositions B _ _)
    (broadcastCursors_presence B _ _)
  have hpres : ∀ c ∈ act, c.id ≠ conn.id → ∀ u, u = c.id →
      (st.rooms.removeUser conn.roomId conn.id).1.presence c.roomId u =
        st.rooms.presence c.roomId u := by
    intro c _ hcid u hu
    apply RoomRegistry.removeUser_presence_ne
    rintro ⟨-, e⟩
    exact hcid (hu ▸ e.symm)
  refine ⟨h.ids_nodup.sublist ((List.erase_sublist _ _).map _),
    fun c hc => h.ids_used c (hne c hc).1, mapDelete_keys_nodup _ _ h.keys_nodup, ?_, ?_⟩
  · intro c hc
    obtain ⟨hmem, hcid⟩ := hne c hc
    show ∃ p, (st.rooms.removeUser conn.roomId conn.id).1.presence c.roomId c.id = some p ∧ _
    rw [hpres c hmem hcid c.id rfl]
    exact h.present c hmem
  · intro id cursor hm
    have hid := mem_mapDelete_ne h.keys_nodup hm
    obtain ⟨c, hc, hcid, p, hp, hl⟩ := h.cursors id cursor (RoomRegistry.mem_of_mem_mapDelete hm)
    have hcne : c.id ≠ conn.id := hcid ▸ hid
    refine ⟨c, ?_, hcid, p, ?_, hl⟩
    · exact (List.mem_erase_of_ne (fun e : c = conn => hcne (by rw [e]))).mpr hc
    · show (st.rooms.removeUser conn.roomId conn.id).1.presence c.roomId id = some p
      rw [hpres c hc hcne id hcid.symm]
      exact hp

theorem onSetDisplayName_fail (B : Builtins) (conn : Conn) (st : ServerState)
    (rawName ack : JSVal) (error : JSString) (h : normalizeDisplayName rawName = .fail error) :
    (onSetDisplayName B conn st rawName ack).1 = st := by
  unfold onSetDisplayName
  simp only [h]

theorem onSetDisplayName_ok (B : Builtins) (conn : Conn) (st : ServerState)
    (rawName ack : JSVal) (value : JSString) (existing : JSObject)
    (h : normalizeDisplayName rawName = .ok value)
    (hp : st.rooms.presence conn.roomId conn.id = some existing) :
    (onSetDisplayName B conn st rawName ack).1 =
      (broadcastCursors B (broadcastUserList
        { st with
          rooms := (st.rooms.updateUser conn.roomId conn.id (.obj [("label", .str value)])).1
          cursorPositions :=
            match mapGet conn.id st.cursorPositions with
            | some existingCursor =>
              mapSet conn.id { existingCursor with label := .str value } st.cursorPositions
            | none => st.cursorPositions } conn.roomId).1 conn.roomId).1 := by
  have hl := labelOf_updated conn.id existing (.str value)
  unfold labelOf at hl
  unfold onSetDisplayName
  simp only [h, RoomRegistry.updateUser_some st.rooms conn.roomId conn.id _ existing hp, hl]
  cases hc : mapGet conn.id st.cursorPositions with
  | none => rfl
  | some existingCursor => rfl

theorem CursorInv.setDisplayName {B : Builtins} {st : ServerState} {act : List Conn}
    {used : List JSString} (h : CursorInv st act used) (conn : Conn) (rawName ack : JSVal)
    (hconn : conn ∈ act) :
    CursorInv (onSetDisplayName B conn st rawName ack).1 act used ∧
      ∀ value, normalizeDisplayName rawName = .ok value →
        ∃ p, (onSetDisplayName B conn st rawName ack).1.rooms.presence conn.roomId conn.id =
            some p ∧ labelOf p = .str value := by
  obtain ⟨existing, hp, -⟩ := h.present conn hconn
  cases hn : normalizeDisplayName rawName with
  | fail error =>
    rw [onSetDisplayName_fail B conn st rawName ack error hn]
    exact ⟨h, fun value hv => by simp at hv⟩
  | ok value =>
    rw [onSetDisplayName_ok B conn st rawName ack value existing hn hp]
    have hupd : ∀ r u,
        (st.rooms.updateUser conn.roomId conn.id (.obj [("label", .str value)])).1.presence r u =
          if conn.roomId = r ∧ conn.id = u then
            some (setField "id" (.str conn.id)
              (spreadInto (spreadInto [] (.obj existing)) (.obj [("label", .str value)])))
          else st.rooms.presence r u := by
      intro r u
      rw [RoomRegistry.updateUser_presence,
        RoomRegistry.updateUser_some st.rooms conn.roomId conn.id _ existing hp]
    have hother : ∀ c ∈ act, c.id ≠ conn.id → ∀ u, u = c.id →
        (st.rooms.updateUser conn.roomId conn.id (.obj [("label", .str value)])).1.presence
          c.roomId u = st.rooms.presence c.roomId u := by
      intro c _ hcid u hu
      rw [hupd, if_neg]
      rintro ⟨-, e⟩
      exact hcid (hu ▸ e.symm)
    have hself :
        (st.rooms.updateUser conn.roomId conn.id (.obj [("label", .str value)])).1.presence
          conn.roomId conn.id =
          some (setField "id" (.str conn.id)
            (spreadInto (spreadInto [] (.obj existing)) (.obj [("label", .str value)]))) := by
      rw [hupd, if_pos ⟨rfl, rfl⟩]
    have hlab := labelOf_updated conn.id existing (.str value)
    constructor
    · refine CursorInv.congr (CursorInv.congr ?_ (broadcastUserList_cursorPositions _ _)
        (broadcastUserList_presence _ _)) (broadcastCursors_cursorPositions B _ _)
        (broadcastCursors_presence B _ _)
      have hpresent : ∀ c ∈ act, ∃ p,
          (st.rooms.updateUser conn.roomId conn.id (.obj [("label", .str value)])).1.presence
            c.roomId c.id = some p ∧ truthy (labelOf p) = true := by
        intro c hc
        by_cases hcid : c.id = conn.id
        · have := h.conn_unique hc hconn hcid
          subst this
          exact ⟨_, hself, by rw [hlab]; exact normalizeDisplayName_ok_truthy hn⟩
        · rw [hother c hc hcid c.id rfl]
          exact h.present c hc
      have hold : ∀ id cursor, (id, cursor) ∈ st.cursorPositions → id ≠ conn.id →
          ∃ c ∈ act, c.id = id ∧ ∃ p,
            (st.rooms.updateUser conn.roomId conn.id (.obj [("label", .str value)])).1.presence
              c.roomId id = some p ∧ labelOf p = cursor.label := by
        intro id cursor hm hid
        obtain ⟨c, hc, hcid, q, hq, hl⟩ := h.cursors id cursor hm
        refine ⟨c, hc, hcid, q, ?_, hl⟩
        rw [hother c hc (hcid ▸ hid) id hcid.symm]
        exact hq
      cases hc : mapGet conn.id st.cursorPositions with
      | none =>
        refine ⟨h.ids_nodup, h.ids_used, h.keys_nodup, hpresent, ?_⟩
        intro id cursor hm
        apply hold id cursor hm
        intro hid
        obtain ⟨v', hv'⟩ := mapGet_of_mem hm
        rw [hid, hc] at hv'
        simp at hv'
      | some existingCursor =>
        refine ⟨h.ids_nodup, h.ids_used, mapSet_keys_nodup _ _ _ h.keys_nodup, hpresent, ?_⟩
        intro id cursor hm
        rcases mem_mapSet_nodup h.keys_nodup hm with ⟨hk, hv⟩ | ⟨hk, hmem⟩
        · exact ⟨conn, hconn, hk.symm, _, by rw [hk]; exact hself, by rw [hlab, hv]⟩
        · exact hold id cursor hmem hk
    · intro value' hv
      simp only [NameResult.ok.injEq] at hv
      subst hv
      refine ⟨_, ?_, hlab⟩
      rw [broadcastCursors_presence, broadcastUserList_presence]
      exact hself

theorem Reach.inv {B : Builtins} {st : ServerState} {act : List Conn} {used : List JSString}
    (h : Reach B st act used) : CursorInv st act used := by
  induction h with
  | init =>
    exact ⟨List.nodup_nil, fun c hc => by simp at hc, List.nodup_nil,
      fun c hc => by simp at hc, fun id cursor hm => by simp [ServerState.init] at hm⟩
  | connection socketId requestedRoom _ hfresh ih => exact ih.connection socketId requestedRoom hfresh
  | cursorMove conn position _ hconn ih => exact ih.cursorMove conn position hconn
  | setDisplayName conn rawName ack _ hconn ih => exact (ih.setDisplayName conn rawName ack hconn).1
  | disconnect conn _ hconn ih => exact ih.disconnect conn hconn

/-- C20: in every state reached through `connection`, `cursor_move`,
`set_display_name` and `disconnect` events (fresh id per connection, events
only from open connections), every entry of `cursorPositions` is keyed by an
open connection that has a presence in its room, with the entry's label equal
to that presence's label; after a disconnect no cursor entry of that
connection remains; and after a successful `set_display_name` the presence
label and the cursor label (if any) of the connection are the normalized
name. -/
theorem reach_cursor_labels (B : Builtins) (st : ServerState) (act : List Conn)
    (used : List JSString) (h : Reach B st act used) :
    (∀ id cursor, (id, cursor) ∈ st.cursorPositions →
      ∃ conn ∈ act, conn.id = id ∧ ∃ p,
        (st.rooms.getUser conn.roomId id).2 = some p ∧ labelOf p = cursor.label) ∧
    (∀ conn ∈ act, ∀ cursor, (conn.id, cursor) ∉ (onDisconnect B conn st).1.cursorPositions) ∧
    ∀ conn ∈ act, ∀ rawName ack value, normalizeDisplayName rawName = .ok value →
      (∃ p, ((onSetDisplayName B conn st rawName ack).1.rooms.getUser conn.roomId conn.id).2 =
          some p ∧ labelOf p = .str value) ∧
        ∀ cursor, (conn.id, cursor) ∈ (onSetDisplayName B conn st rawName ack).1.cursorPositions →
          cursor.label = .str value := by
  have hinv := h.inv
  refine ⟨?_, ?_, ?_⟩
  · intro id cursor hm
    obtain ⟨c, hc, hid, p, hp, hl⟩ := hinv.cursors id cursor hm
    exact ⟨c, hc, hid, p, by rw [RoomRegistry.getUser_snd]; exact hp, hl⟩
  · intro conn hconn cursor hm
    have hd := @CursorInv.disconnect B st act used hinv conn hconn
    obtain ⟨c, hc, hid, -⟩ := hd.cursors conn.id cursor hm
    have hact : act.Nodup := List.Nodup.of_map _ hinv.ids_nodup
    have hcact := List.mem_of_mem_erase hc
    have := hinv.conn_unique hcact hconn hid
    rw [this] at hc
    exact (List.Nodup.not_mem_erase hact) hc
  · intro conn hconn rawName ack value hv
    obtain ⟨hs, hpres⟩ := @CursorInv.setDisplayName B st act used hinv conn rawName ack hconn
    obtain ⟨p, hp, hl⟩ := hpres value hv
    refine ⟨⟨p, by rw [RoomRegistry.getUser_snd]; exact hp, hl⟩, ?_⟩
    intro cursor hm
    obtain ⟨c, hc, hid, q, hq, hlq⟩ := hs.cursors conn.id cursor hm
    have := hinv.conn_unique hc hconn hid
    subst this
    rw [hp] at hq
    simp only [Option.some.injEq] at hq
    rw [← hlq, ← hq, hl]

/-- C20 on the state reached when one client has connected and moved its
cursor: a disconnect of that client leaves no cursor entry for it. -/
theorem reach_cursor_labels_witness :
    Reach Builtins.stub sampleReached [connA] [connA.id] ∧
      ¬ ∃ cursor,
        (connA.id, cursor) ∈ (onDisconnect Builtins.stub connA sampleReached).1.cursorPositions :=
  have hr : Reach Builtins.stub sampleReached [connA] [connA.id] :=
    Reach.cursorMove connA (rawPoint 1 2)
      (Reach.connection connA.id (.str connA.roomId) Reach.init (by simp))
      (List.mem_cons_self _ _)
  ⟨hr, fun ⟨cursor, hm⟩ =>
    (reach_cursor_labels Builtins.stub sampleReached [connA] [connA.id] hr).2.1 connA
      (List.mem_cons_self _ _) cursor hm⟩

end Drawboard
